import Mathlib

/-!
Verification development for the W3C design-token parsing and reference
resolution engine (`src/parsers/w3c-tokens.ts`).

The embedding models:
  * JSON-like values (`Value`),
  * the zod token grammar (`isToken` and its per-type alternatives),
  * the recursive group validator (`groupOkF`, `noIssueF`),
  * the flattening parser (`extractTokensFromGroup`, `parseDocs`),
  * the category classifier (`inferTokenCategory`),
  * the reference resolver (`resolveStep` and its wrappers
    `resolveToken`, `resolveAllTokens`).

JavaScript `Map` objects are modelled as insertion-ordered association
lists (`mapGet`, `mapSet`, `mapValues`); `Map.set` on an existing key
replaces the value in place, otherwise appends.  Unbounded recursions of
the source are given an explicit fuel parameter so that every definition
is a computable structural recursion; the `ROut.exhausted` outcome marks
insufficient fuel and never occurs for the fuel bounds used in theorems.
A thrown JavaScript exception (the resolver can raise a `TypeError` in
its cycle branch when `parseTokenReference` receives a non-string) is
modelled by the `ROut.thrown` outcome.
-/

set_option autoImplicit false

/-- JSON-like runtime values.  Numbers are modelled as integers: no claim
depends on non-integral numerics. -/
inductive Value where
  | vstr (s : String)
  | vnum (n : Int)
  | vbool (b : Bool)
  | vnull
  | varr (items : List Value)
  | vobj (fields : List (String × Value))

/-- First field with the given key, mirroring JavaScript property lookup
on plain data objects. -/
def mapGet {α : Type} : List (String × α) → String → Option α
  | [], _ => none
  | (k', v') :: rest, k => if k' = k then some v' else mapGet rest k

/-- `Map.set` semantics: replace the first entry with the key in place,
otherwise append at the end (insertion order preserved). -/
def mapSet {α : Type} : List (String × α) → String → α → List (String × α)
  | [], k, v => [(k, v)]
  | (k', v') :: rest, k, v =>
      if k' = k then (k', v) :: rest else (k', v') :: mapSet rest k v

/-- `Map.values()` in insertion order. -/
def mapValues {α : Type} (m : List (String × α)) : List α := m.map Prod.snd

@[simp] theorem mapGet_nil {α : Type} (k : String) : mapGet ([] : List (String × α)) k = none := rfl

@[simp] theorem mapGet_cons {α : Type} (k' : String) (v' : α) (rest : List (String × α)) (k : String) :
    mapGet ((k', v') :: rest) k = if k' = k then some v' else mapGet rest k := rfl

theorem mapGet_mapSet {α : Type} (m : List (String × α)) (k : String) (v : α) (n : String) :
    mapGet (mapSet m k v) n = if k = n then some v else mapGet m n := by
  induction m with
  | nil =>
      by_cases h : k = n <;> simp [mapSet, mapGet, h]
  | cons hd tl ih =>
      obtain ⟨k', v'⟩ := hd
      simp only [mapSet]
      by_cases hk : k' = k
      · subst hk
        by_cases hn : k' = n
        · subst hn; simp
        · simp [hn, mapGet_cons]
      · simp only [if_neg hk, mapGet_cons]
        by_cases hn : k' = n
        · subst hn
          have : ¬ k = k' := fun h => hk h.symm
          simp [this]
        · simp [hn, ih]

theorem mapGet_mem {α : Type} {m : List (String × α)} {k : String} {v : α}
    (h : mapGet m k = some v) : v ∈ mapValues m := by
  induction m with
  | nil => simp [mapGet] at h
  | cons hd tl ih =>
      obtain ⟨k', v'⟩ := hd
      simp only [mapGet_cons] at h
      by_cases hk : k' = k
      · simp [hk] at h
        simp [mapValues, h]
      · simp [hk] at h
        have := ih h
        simp [mapValues] at this ⊢
        exact Or.inr this

/-- Keys of an association list. -/
def mapKeys {α : Type} (m : List (String × α)) : List String := m.map Prod.fst

theorem mapKeys_mapSet {α : Type} (m : List (String × α)) (k : String) (v : α) :
    mapKeys (mapSet m k v) = mapKeys m ∨ mapKeys (mapSet m k v) = mapKeys m ++ [k] := by
  induction m with
  | nil => right; rfl
  | cons hd tl ih =>
      obtain ⟨k', v'⟩ := hd
      simp only [mapSet]
      by_cases hk : k' = k
      · left; simp [hk, mapKeys]
      · rcases ih with h | h
        · left; simp [hk, mapKeys] at h ⊢; exact h
        · right; simp [hk, mapKeys] at h ⊢; exact h

theorem nodup_mapKeys_mapSet {α : Type} (m : List (String × α)) (k : String) (v : α)
    (h : (mapKeys m).Nodup) : (mapKeys (mapSet m k v)).Nodup := by
  induction m with
  | nil => simp [mapSet, mapKeys]
  | cons hd tl ih =>
      obtain ⟨k', v'⟩ := hd
      simp only [mapKeys, List.map_cons, List.nodup_cons] at h
      simp only [mapSet]
      by_cases hk : k' = k
      · simp only [if_pos hk, mapKeys, List.map_cons, List.nodup_cons]
        exact h
      · simp only [if_neg hk, mapKeys, List.map_cons, List.nodup_cons]
        refine ⟨?_, ih h.2⟩
        intro hmem
        rcases mapKeys_mapSet tl k v with he | he
        · rw [mapKeys] at he
          rw [he] at hmem
          exact h.1 hmem
        · rw [mapKeys] at he
          rw [he] at hmem
          rcases List.mem_append.1 hmem with hl | hr
          · exact h.1 hl
          · simp at hr
            exact hk hr

/-- `String.includes` of JavaScript: substring test. -/
def includesAux (pat : List Char) : List Char → Bool
  | [] => pat.isEmpty
  | c :: rest => pat.isPrefixOf (c :: rest) || includesAux pat rest

def strIncludes (s pat : String) : Bool := includesAux pat.toList s.toList

/-- Character-by-character string transform (the core `String.map` does not
reduce in the kernel, so witnesses use this list-based equivalent). -/
def strMap (f : Char → Char) (s : String) : String := String.mk (s.toList.map f)

/-- `toLowerCase` (ASCII, which covers every string compared against it). -/
def strToLower (s : String) : String := strMap Char.toLower s

def strStartsWith (s pat : String) : Bool := pat.toList.isPrefixOf s.toList

def strEndsWith (s pat : String) : Bool := pat.toList.isSuffixOf s.toList

/-- `String.split` on a character class, JavaScript `split(/[..]/)` semantics
(empty pieces between and around separators are kept). -/
def splitCharsAux (p : Char → Bool) : List Char → List (List Char)
  | [] => [[]]
  | c :: rest =>
      let r := splitCharsAux p rest
      if p c then [] :: r
      else
        match r with
        | h :: t => (c :: h) :: t
        | [] => [[c]]

def strSplit (s : String) (p : Char → Bool) : List String :=
  (splitCharsAux p s.toList).map String.mk

/-- `/^\x7b[^\x7d]+\x7d$/` test used by `TokenReferenceResolver.isTokenReference`:
an opening brace, one or more non-closing-brace characters, a closing brace. -/
def isTokenReferenceStr (s : String) : Bool :=
  match s.toList with
  | c :: rest =>
      (c == '{') && (rest.getLast? == some '}') && !rest.dropLast.isEmpty &&
        rest.dropLast.all (fun ch => ch != '}')
  | [] => false

/-- `parseTokenReference`: match against `/^\x7b([^\x7d]+)\x7d$/` and return the
capture group, `none` when the pattern does not match. -/
def parseTokenReferenceStr (s : String) : Option String :=
  match s.toList with
  | c :: rest =>
      if (c == '{') && (rest.getLast? == some '}') && !rest.dropLast.isEmpty &&
          rest.dropLast.all (fun ch => ch != '}') then
        some (String.mk rest.dropLast)
      else none
  | [] => none

theorem isTokenReferenceStr_iff_parse_isSome (s : String) :
    isTokenReferenceStr s = (parseTokenReferenceStr s).isSome := by
  unfold isTokenReferenceStr parseTokenReferenceStr
  cases h : s.toList with
  | nil => rfl
  | cons c rest =>
      cases hcond : ((c == '{') && (rest.getLast? == some '}') && !rest.dropLast.isEmpty &&
          rest.dropLast.all (fun ch => ch != '}')) <;> simp [hcond]

theorem parseTokenReferenceStr_ne_empty {s r : String}
    (h : parseTokenReferenceStr s = some r) : r ≠ "" := by
  unfold parseTokenReferenceStr at h
  cases hs : s.toList with
  | nil => rw [hs] at h; exact absurd h (by simp)
  | cons c rest =>
      rw [hs] at h
      cases hcond : ((c == '{') && (rest.getLast? == some '}') && !rest.dropLast.isEmpty &&
          rest.dropLast.all (fun ch => ch != '}')) with
      | false => simp [hcond] at h
      | true =>
          simp only [hcond, if_true] at h
          have hr : r = String.mk rest.dropLast := by
            injection h with h'; exact h'.symm
          subst hr
          have hne : ¬ rest.dropLast.isEmpty := by
            simp only [Bool.and_eq_true, Bool.not_eq_true'] at hcond
            simp [hcond.1.2]
          intro hcontra
          apply hne
          have hdata : (String.mk rest.dropLast).data = ("" : String).data := by rw [hcontra]
          simp only [String.data] at hdata
          simp [hdata]

/-! ## Token grammar (`TokenSchema` and friends) -/

/-- The `TokenTypeSchema` enum. -/
def tokenEnum : List String :=
  ["color", "dimension", "fontFamily", "fontWeight", "duration", "cubicBezier",
   "number", "strokeStyle", "border", "transition", "shadow", "gradient", "typography"]

def getField (fs : List (String × Value)) (k : String) : Option Value := mapGet fs k

def objField (v : Value) (k : String) : Option Value :=
  match v with
  | Value.vobj fs => getField fs k
  | _ => none

def isStrVal : Value → Bool
  | Value.vstr _ => true
  | _ => false

def isNumVal : Value → Bool
  | Value.vnum _ => true
  | _ => false

def isStrArrVal : Value → Bool
  | Value.varr xs => xs.all isStrVal
  | _ => false

/-- `z.object(...).passthrough()` / `z.record(z.any())` both accept exactly
plain (non-array, non-null) objects. -/
def isObjVal : Value → Bool
  | Value.vobj _ => true
  | _ => false

/-- Required field whose value must satisfy `p`. -/
def fieldValueIs (fs : List (String × Value)) (k : String) (p : Value → Bool) : Bool :=
  match getField fs k with
  | some v => p v
  | none => false

/-- Optional field: absent, or present and satisfying `p`. -/
def optValueIs (fs : List (String × Value)) (k : String) (p : Value → Bool) : Bool :=
  match getField fs k with
  | some v => p v
  | none => true

def optFieldStr (fs : List (String × Value)) (k : String) : Bool := optValueIs fs k isStrVal

def optFieldRecord (fs : List (String × Value)) (k : String) : Bool := optValueIs fs k isObjVal

/-- `$description` / `$extensions` constraints shared by every token schema. -/
def baseMetaOk (fs : List (String × Value)) : Bool :=
  optFieldStr fs "$description" && optFieldRecord fs "$extensions"

def fieldIsLit (fs : List (String × Value)) (k lit : String) : Bool :=
  match getField fs k with
  | some (Value.vstr t) => t == lit
  | _ => false

def isHexDigit (c : Char) : Bool :=
  c.isDigit || ('a' ≤ c && c ≤ 'f') || ('A' ≤ c && c ≤ 'F')

/-- `/^#([0-9a-fA-F]{3}|[0-9a-fA-F]{6})$/` -/
def isHexColor (s : String) : Bool :=
  match s.toList with
  | c :: rest => (c == '#') && (rest.length == 3 || rest.length == 6) && rest.all isHexDigit
  | [] => false

/-- The `$value` refinement of `ColorTokenSchema` (hex, token reference with the
same pattern as the resolver, or CSS keyword). -/
def colorValueOk (s : String) : Bool :=
  isHexColor s || isTokenReferenceStr s || ["transparent", "inherit", "currentColor"].contains s

def matchesColorToken : Value → Bool
  | Value.vobj fs =>
      fieldIsLit fs "$type" "color" &&
      fieldValueIs fs "$value" (fun v => match v with
        | Value.vstr s => colorValueOk s
        | _ => false) &&
      baseMetaOk fs
  | _ => false

def matchesDimensionToken : Value → Bool
  | Value.vobj fs =>
      fieldIsLit fs "$type" "dimension" && fieldValueIs fs "$value" isStrVal && baseMetaOk fs
  | _ => false

def matchesFontFamilyToken : Value → Bool
  | Value.vobj fs =>
      fieldIsLit fs "$type" "fontFamily" &&
      fieldValueIs fs "$value" (fun v => isStrVal v || isStrArrVal v) && baseMetaOk fs
  | _ => false

def matchesFontWeightToken : Value → Bool
  | Value.vobj fs =>
      fieldIsLit fs "$type" "fontWeight" &&
      fieldValueIs fs "$value" (fun v => isNumVal v || isStrVal v) && baseMetaOk fs
  | _ => false

def matchesDurationToken : Value → Bool
  | Value.vobj fs =>
      fieldIsLit fs "$type" "duration" && fieldValueIs fs "$value" isStrVal && baseMetaOk fs
  | _ => false

def matchesNumberToken : Value → Bool
  | Value.vobj fs =>
      fieldIsLit fs "$type" "number" && fieldValueIs fs "$value" isNumVal && baseMetaOk fs
  | _ => false

def typographyValueOk : Value → Bool
  | Value.vobj ts =>
      fieldValueIs ts "fontFamily" (fun v => isStrVal v || isStrArrVal v) &&
      fieldValueIs ts "fontSize" isStrVal &&
      fieldValueIs ts "fontWeight" (fun v => isNumVal v || isStrVal v) &&
      optValueIs ts "letterSpacing" isStrVal &&
      optValueIs ts "lineHeight" (fun v => isNumVal v || isStrVal v)
  | _ => false

def matchesTypographyToken : Value → Bool
  | Value.vobj fs =>
      fieldIsLit fs "$type" "typography" && fieldValueIs fs "$value" typographyValueOk &&
      baseMetaOk fs
  | _ => false

def borderValueOk : Value → Bool
  | Value.vobj bs =>
      fieldValueIs bs "color" isStrVal && fieldValueIs bs "width" isStrVal &&
      fieldValueIs bs "style" isStrVal
  | _ => false

def matchesBorderToken : Value → Bool
  | Value.vobj fs =>
      fieldIsLit fs "$type" "border" && fieldValueIs fs "$value" borderValueOk && baseMetaOk fs
  | _ => false

def shadowObjOk : Value → Bool
  | Value.vobj ss =>
      fieldValueIs ss "color" isStrVal && fieldValueIs ss "offsetX" isStrVal &&
      fieldValueIs ss "offsetY" isStrVal && fieldValueIs ss "blur" isStrVal &&
      optValueIs ss "spread" isStrVal
  | _ => false

def shadowValueOk (v : Value) : Bool :=
  shadowObjOk v ||
    (match v with
     | Value.varr xs => xs.all shadowObjOk
     | _ => false)

def matchesShadowToken : Value → Bool
  | Value.vobj fs =>
      fieldIsLit fs "$type" "shadow" && fieldValueIs fs "$value" shadowValueOk && baseMetaOk fs
  | _ => false

/-- `SpecificTokenSchema`: union of the nine typed token schemas. -/
def matchesSpecificToken (v : Value) : Bool :=
  matchesColorToken v || matchesDimensionToken v || matchesFontFamilyToken v ||
  matchesFontWeightToken v || matchesDurationToken v || matchesNumberToken v ||
  matchesTypographyToken v || matchesBorderToken v || matchesShadowToken v

/-- `UntypedTokenSchema`: `.strict()` object with `$value` a string, number or
plain object, optional `$description` string and `$extensions` record. -/
def matchesUntypedToken : Value → Bool
  | Value.vobj fs =>
      fs.all (fun kv => ["$value", "$description", "$extensions"].contains kv.1) &&
      fieldValueIs fs "$value" (fun v => isStrVal v || isNumVal v || isObjVal v) &&
      optFieldStr fs "$description" && optFieldRecord fs "$extensions"
  | _ => false

/-- `TokenReferenceSchema`: `$value` a string matching the alias pattern,
optional valid `$type`, optional metadata. -/
def matchesReferenceToken : Value → Bool
  | Value.vobj fs =>
      fieldValueIs fs "$value" (fun v => match v with
        | Value.vstr s => isTokenReferenceStr s
        | _ => false) &&
      (match getField fs "$type" with
       | none => true
       | some (Value.vstr t) => tokenEnum.contains t
       | some _ => false) &&
      baseMetaOk fs
  | _ => false

/-- `isToken` / `TokenSchema.safeParse(...).success`. -/
def isToken (v : Value) : Bool :=
  matchesSpecificToken v || matchesUntypedToken v || matchesReferenceToken v

/-! ## Token groups, flattening, validation -/

/-- `Object.entries`: fields of an object, or index/element pairs of an array
(arrays are `typeof 'object'` in JavaScript and get enumerated the same way). -/
def entriesOf : Value → List (String × Value)
  | Value.vobj fs => fs
  | Value.varr xs => xs.enum.map (fun p => (toString p.1, p.2))
  | _ => []

/-- `typeof v === 'object' && v !== null` -/
def isObjectLike : Value → Bool
  | Value.vobj _ => true
  | Value.varr _ => true
  | _ => false

/-- `isTokenGroup`, with explicit recursion fuel. -/
def isTokenGroupF : Nat → Value → Bool
  | 0, _ => false
  | fuel + 1, v =>
      isObjectLike v && !isToken v &&
        (entriesOf v).all (fun kv =>
          strStartsWith kv.1 "$" || isToken kv.2 || isTokenGroupF fuel kv.2)

structure ParsedToken where
  name : String
  path : List String
  value : Value
  type : Option String := none
  description : Option String := none
  extensions : Option Value := none

/-- Parser state of `TokenFileParser` (`tokens`, `categories`, `errors`). -/
structure PState where
  tokens : List (String × ParsedToken) := []
  categories : List (String × List ParsedToken) := []
  errors : List String := []

/-- `tokenHasType`: the token's `$type` when it is a string. -/
def tokenTypeOf (v : Value) : Option String :=
  match objField v "$type" with
  | some (Value.vstr t) => some t
  | _ => none

def descriptionOf (v : Value) : Option String :=
  match objField v "$description" with
  | some (Value.vstr d) => some d
  | _ => none

def extensionsOf (v : Value) : Option Value := objField v "$extensions"

def valueOf (v : Value) : Value := (objField v "$value").getD Value.vnull

def catPush (cats : List (String × List ParsedToken)) (k : String) (t : ParsedToken) :
    List (String × List ParsedToken) :=
  match mapGet cats k with
  | some l => mapSet cats k (l ++ [t])
  | none => cats ++ [(k, [t])]

/-- `TokenFileParser.extractTokensFromGroup`. -/
def extractTokensFromGroup : Nat → Value → List String → PState → PState
  | 0, _, _, st => st
  | fuel + 1, g, path, st =>
      (entriesOf g).foldl (fun acc kv =>
        if strStartsWith kv.1 "$" then acc
        else
          let currentPath := path ++ [kv.1]
          if isToken kv.2 then
            let tokenName := String.intercalate "-" currentPath
            let pt : ParsedToken :=
              { name := tokenName, path := currentPath, value := valueOf kv.2,
                type := tokenTypeOf kv.2, description := descriptionOf kv.2,
                extensions := extensionsOf kv.2 }
            { acc with tokens := mapSet acc.tokens tokenName pt,
                       categories := catPush acc.categories (currentPath.headD "") pt }
          else if isTokenGroupF fuel kv.2 then
            extractTokensFromGroup fuel kv.2 currentPath acc
          else acc) st

def declaredGroupKeys : List String := ["$schema", "$type", "$description", "$extensions"]

def optFieldEnum (fs : List (String × Value)) (k : String) : Bool :=
  match getField fs k with
  | none => true
  | some (Value.vstr t) => tokenEnum.contains t
  | some _ => false

/-- `TokenGroupSchema`: metadata keys validated by their schemas, every other
key a token or (recursively) a group. -/
def groupOkF : Nat → Value → Bool
  | 0, _ => false
  | fuel + 1, v =>
      match v with
      | Value.vobj fs =>
          optFieldStr fs "$schema" && optFieldEnum fs "$type" && optFieldStr fs "$description" &&
          optFieldRecord fs "$extensions" &&
          fs.all (fun kv =>
            declaredGroupKeys.contains kv.1 || isToken kv.2 || groupOkF fuel kv.2)
      | _ => false

/-- The `superRefine` pass (`validateNode`): true when no issue is added.  A
node that looks like a token (`$type` or `$value` present) but fails the token
schema is an issue and its children are not visited; otherwise all non-`$`
children are checked recursively. -/
def noIssueF : Nat → Value → Bool
  | 0, _ => false
  | fuel + 1, v =>
      match v with
      | Value.vobj fs =>
          ((!((getField fs "$type").isSome || (getField fs "$value").isSome)) || isToken v) &&
            fs.all (fun kv => strStartsWith kv.1 "$" || noIssueF fuel kv.2)
      | _ => true

/-- `validateDesignTokensFile` succeeds: schema parse plus refinement pass. -/
def validateFileF (fuel : Nat) (v : Value) : Bool := groupOkF fuel v && noIssueF fuel v

/-- `TokenFileParser.parseTokenFile` on an already-parsed JSON document:
validate, then extract; a validation failure is recorded as an error and the
document contributes no tokens. -/
def parseDoc (fuel : Nat) (st : PState) (doc : Value) : PState :=
  if validateFileF fuel doc then extractTokensFromGroup fuel doc [] st
  else { st with errors := st.errors ++ ["Invalid W3C Design Token file"] }

/-- `parseMultipleTokenFiles` over already-parsed documents: one shared parser,
documents processed in order. -/
def parseDocs (fuel : Nat) (docs : List Value) : PState :=
  docs.foldl (parseDoc fuel) {}

def insertByName (t : ParsedToken) : List ParsedToken → List ParsedToken
  | [] => [t]
  | h :: rest => if t.name ≤ h.name then t :: h :: rest else h :: insertByName t rest

/-- `getResults().allTokens`: token map values sorted by name.
(`localeCompare` is modelled as code-unit order.) -/
def allTokensOf (st : PState) : List ParsedToken :=
  (mapValues st.tokens).foldr insertByName []

/-! ## Category classifier -/

/-- Keys of `KNOWN_CATEGORIES`.  The JavaScript record lookup
`KNOWN_CATEGORIES[name]` is modelled as membership in this key list;
prototype-chain lookups are below the abstraction level of this model. -/
def knownCategoryNames : List String :=
  ["colors", "typography", "spacing", "borders", "shadows", "animations", "components"]

def spacingKeywords : List String :=
  ["spacing", "space", "margin", "padding", "gap", "inset",
   "xs", "sm", "md", "lg", "xl", "2xl", "3xl", "4xl", "none", "auto", "px"]

def borderKeywords : List String :=
  ["border", "stroke", "outline", "divider", "width", "radius", "style"]

def isSpacingToken (t : ParsedToken) : Bool :=
  let tokenPath := strToLower (String.intercalate "-" t.path)
  let tokenName := strToLower t.name
  spacingKeywords.any (fun kw => strIncludes tokenPath kw || strIncludes tokenName kw)

def isBorderToken (t : ParsedToken) : Bool :=
  let tokenPath := strToLower (String.intercalate "-" t.path)
  let tokenName := strToLower t.name
  borderKeywords.any (fun kw => strIncludes tokenPath kw || strIncludes tokenName kw)

/-- `inferTokenCategory`.  `none` models the runtime crash on an empty path
(`token.path[0].toLowerCase()` on `undefined`); flattened tokens always have a
non-empty path. -/
def inferTokenCategory (t : ParsedToken) : Option String :=
  match t.path.head? with
  | none => none
  | some p0 =>
      let primaryCategory := strToLower p0
      if knownCategoryNames.contains primaryCategory then some primaryCategory
      else
        match t.type with
        | some ty =>
            if ty == "color" then some "colors"
            else if ty == "fontFamily" || ty == "fontWeight" || ty == "typography" then
              some "typography"
            else if ty == "dimension" then
              (if isSpacingToken t then some "spacing"
               else if isBorderToken t then some "borders"
               else some "dimensions")
            else if ty == "border" then some "borders"
            else if ty == "shadow" then some "shadows"
            else if ty == "duration" || ty == "cubicBezier" || ty == "transition" then
              some "animations"
            else some primaryCategory
        | none => some primaryCategory

/-! ## Reference resolver (`TokenReferenceResolver`) -/

structure ResolvedToken where
  name : String
  path : List String
  value : Value
  type : Option String := none
  description : Option String := none
  extensions : Option Value := none
  originalValue : Value
  resolvedValue : Value
  referencePath : Option String := none
  isResolved : Bool
  hasCircularReference : Bool := false
  resolutionError : Option String := none

/-- Resolver state: token lookup map, memoised resolutions, resolution stack
(a JavaScript `Set`, in insertion order). -/
structure RState where
  tokenMap : List (String × ParsedToken)
  resolved : List (String × ResolvedToken) := []
  stack : List String := []

def joinDots (path : List String) : String := String.intercalate "." path

/-- Constructor of `TokenReferenceResolver`: index each token by its name and
by its dot-joined path. -/
def buildTokenMap (tokens : List ParsedToken) : List (String × ParsedToken) :=
  tokens.foldl (fun m t => mapSet (mapSet m t.name t) (joinDots t.path) t) []

def initResolver (tokens : List ParsedToken) : RState :=
  { tokenMap := buildTokenMap tokens }

def dotsToDashes (s : String) : String := strMap (fun c => if c = '.' then '-' else c) s

def dashesToDots (s : String) : String := strMap (fun c => if c = '-' then '.' else c) s

/-- Step (6) of the lookup ladder: split the alias on dots and dashes, take the
last segment, and return the first token whose last path segment equals it or
whose name ends in `-segment`. -/
def lastSegLookup (m : List (String × ParsedToken)) (ref : String) : Option ParsedToken :=
  match (strSplit ref (fun c => c == '.' || c == '-')).getLast? with
  | some seg =>
      if seg = "" then none
      else (mapValues m).find? (fun t =>
        t.path.getLast? == some seg || strEndsWith t.name ("-" ++ seg))
  | none => none

/-- `TokenReferenceResolver.findReferencedToken`, translated branch by branch
(the source performs the map lookup twice in a row for steps (1) and (2)). -/
def findReferencedToken (m : List (String × ParsedToken)) (ref : String) : Option ParsedToken :=
  match mapGet m ref with
  | some t => some t
  | none =>
    match mapGet m ref with
    | some t => some t
    | none =>
      match mapGet m (dotsToDashes ref) with
      | some t => some t
      | none =>
        match mapGet m (dashesToDots ref) with
        | some t => some t
        | none =>
          match (mapValues m).find? (fun t => joinDots t.path = ref) with
          | some t => some t
          | none => lastSegLookup m ref

def mkResolvedBase (t : ParsedToken) : ResolvedToken :=
  { name := t.name, path := t.path, value := t.value, type := t.type,
    description := t.description, extensions := t.extensions,
    originalValue := t.value, resolvedValue := t.value, isResolved := true }

/-- The resolved record written for every member of a detected cycle. -/
def cycMark (t : ParsedToken) (msg : String) : ResolvedToken :=
  { mkResolvedBase t with
    isResolved := false
    hasCircularReference := true
    resolutionError := some msg }

def joinArrow (chain : List String) : String := String.intercalate " → " chain

/-- Mark every name of the cycle chain that resolves in the token map. -/
def markChain (tm : List (String × ParsedToken)) (res : List (String × ResolvedToken))
    (chain : List String) (msg : String) : List (String × ResolvedToken) :=
  chain.foldl (fun acc nm =>
    match mapGet tm nm with
    | none => acc
    | some t => mapSet acc nm (cycMark t msg)) res

/-- Truthiness of `err && err.includes('Circular reference')`. -/
def errIncludesCircular (e : Option String) : Bool :=
  match e with
  | some s => (s != "") && strIncludes s "Circular reference"
  | none => false

/-- `resolvedReference?.resolutionError || fallback` (empty strings are falsy). -/
def orElseStr (e : Option String) (fb : String) : String :=
  match e with
  | some s => if s == "" then fb else s
  | none => fb

/-- The failed-reference result of `resolveTokenValue`. -/
def refFailure (base : ResolvedToken) (refName : String) (rres : Option ResolvedToken) :
    ResolvedToken :=
  { base with
    referencePath := some refName
    isResolved := false
    resolutionError := some (match rres with
      | some r => orElseStr r.resolutionError ("Failed to resolve reference: " ++ refName)
      | none => "Failed to resolve reference: " ++ refName) }

/-- The successful-reference result of `resolveTokenValue`, including the
propagation of a circular marking on the referent. -/
def refSuccess (base : ResolvedToken) (refName : String) (r : ResolvedToken) : ResolvedToken :=
  let final : ResolvedToken :=
    { base with
      resolvedValue := r.resolvedValue
      referencePath := some refName
      isResolved := true }
  if r.hasCircularReference || errIncludesCircular r.resolutionError then
    { final with
      isResolved := false
      hasCircularReference := true
      resolutionError := r.resolutionError }
  else final

/-- Calls into the mutually recursive resolver functions. -/
inductive RCall where
  | rtok (name : String)
  | rtval (t : ParsedToken)
  | rcomp (v : Value)
  | ritem (keyPre : Option String) (item : Value)
  | rcarr (items : List Value)
  | rcobj (fields : List (String × Value))

/-- Outcomes of the resolver functions.  `exhausted` is the fuel artifact,
`thrown` a propagating JavaScript exception. -/
inductive ROut where
  | exhausted
  | thrown
  | tokOut (r : Option ResolvedToken)
  | valOut (r : ResolvedToken)
  | compOut (v : Value) (ok : Bool) (err : Option String)
  | itemOut (v : Value) (ok : Bool) (errs : List String)
  | arrOut (vs : List Value) (ok : Bool) (errs : List String)
  | objOut (fs : List (String × Value)) (ok : Bool) (errs : List String)

/-- Error-string prefixing of the object branch of `resolveCompositeValue`
(the array branch pushes errors unprefixed). -/
def preErr (keyPre : Option String) (e : String) : String :=
  match keyPre with
  | some k => k ++ ": " ++ e
  | none => e

/-- `if (x.resolutionError) errors.push(...)`: push a truthy error. -/
def errListOpt (keyPre : Option String) (e : Option String) : List String :=
  match e with
  | some s => if s == "" then [] else [preErr keyPre s]
  | none => []

def joinErrs (errs : List String) : Option String :=
  if errs.isEmpty then none else some (String.intercalate "; " errs)

/-- Element outcome already computed by a nested `resolveToken` call:
`resolved && resolved.isResolved` keeps the resolved value, anything else keeps
the original item, clears `allResolved` and pushes a truthy error. -/
def itemFromRes (keyPre : Option String) (item : Value) (rres : Option ResolvedToken) :
    Value × Bool × List String :=
  match rres with
  | some r =>
      if r.isResolved then (r.resolvedValue, true, [])
      else (item, false, errListOpt keyPre r.resolutionError)
  | none => (item, false, [])

/-- `this.resolvedTokens.set` step at the end of `resolveToken`: keep an
existing circular entry, otherwise memoise the fresh resolution.  The stack
entry is removed in both cases (the `finally` block). -/
def commitResolved (st : RState) (n : String) (rv : ResolvedToken) : RState × ROut :=
  match mapGet st.resolved n with
  | some ex =>
      if ex.hasCircularReference || errIncludesCircular ex.resolutionError then
        ({ st with stack := st.stack.erase n }, ROut.tokOut (some ex))
      else
        ({ st with stack := st.stack.erase n, resolved := mapSet st.resolved n rv },
          ROut.tokOut (some rv))
  | none =>
      ({ st with stack := st.stack.erase n, resolved := mapSet st.resolved n rv },
        ROut.tokOut (some rv))

/-- The circular-reference branch of `resolveToken`: mark the whole chain,
then attempt to mark the counterpart referenced by the current token.  The
counterpart step calls `parseTokenReference(token.value)`, which throws a
`TypeError` when the value is not a string. -/
def cycleResolve (st : RState) (token : ParsedToken) (n : String) : RState × ROut :=
  let chain := st.stack ++ [n]
  let msg := "Circular reference detected: " ++ joinArrow chain
  let res1 := markChain st.tokenMap st.resolved chain msg
  match token.value with
  | Value.vstr s =>
      let res2 :=
        match parseTokenReferenceStr s with
        | some ref =>
            match findReferencedToken st.tokenMap ref with
            | some cp => mapSet res1 cp.name (cycMark cp msg)
            | none => res1
        | none => res1
      ({ st with resolved := res2 }, ROut.tokOut (mapGet res2 n))
  | _ => ({ st with resolved := res1 }, ROut.thrown)

/-- One fuel-indexed step function covering the mutually recursive resolver
methods `resolveToken` (`rtok`), `resolveTokenValue` (`rtval`),
`resolveCompositeValue` (`rcomp`, with `rcarr`/`rcobj` walking the element and
entry lists and `ritem` handling one element, `keyPre` carrying the object
branch's error key prefix). -/
def resolveStep : Nat → RState → RCall → RState × ROut
  | 0, st, _ => (st, ROut.exhausted)
  | fuel + 1, st, RCall.rtok n =>
      match mapGet st.resolved n with
      | some r => (st, ROut.tokOut (some r))
      | none =>
        match mapGet st.tokenMap n with
        | none => (st, ROut.tokOut none)
        | some token =>
          if st.stack.contains n then cycleResolve st token n
          else
            match resolveStep fuel { st with stack := st.stack ++ [n] } (RCall.rtval token) with
            | (st2, ROut.valOut rv) => commitResolved st2 n rv
            | (st2, ROut.exhausted) => ({ st2 with stack := st2.stack.erase n }, ROut.exhausted)
            | (st2, _) => ({ st2 with stack := st2.stack.erase n }, ROut.thrown)
  | fuel + 1, st, RCall.rtval token =>
      let base := mkResolvedBase token
      match token.value with
      | Value.vstr s =>
          if isTokenReferenceStr s then
            match parseTokenReferenceStr s with
            | none =>
                (st, ROut.valOut { base with
                  isResolved := false
                  resolutionError := some ("Invalid token reference format: " ++ s) })
            | some refName =>
                if refName = "" then
                  (st, ROut.valOut { base with
                    isResolved := false
                    resolutionError := some ("Invalid token reference format: " ++ s) })
                else
                  match findReferencedToken st.tokenMap refName with
                  | none =>
                      (st, ROut.valOut { base with
                        isResolved := false
                        resolutionError := some ("Referenced token not found: " ++ refName) })
                  | some rt =>
                      match resolveStep fuel st (RCall.rtok rt.name) with
                      | (st2, ROut.tokOut rres) =>
                          (st2, ROut.valOut (match rres with
                            | some r =>
                                if r.isResolved then refSuccess base refName r
                                else refFailure base refName rres
                            | none => refFailure base refName none))
                      | (st2, ROut.exhausted) => (st2, ROut.exhausted)
                      | (st2, _) => (st2, ROut.thrown)
          else (st, ROut.valOut base)
      | Value.vobj fs =>
          match resolveStep fuel st (RCall.rcomp (Value.vobj fs)) with
          | (st2, ROut.compOut v ok err) =>
              (st2, ROut.valOut { base with
                resolvedValue := v
                isResolved := ok
                resolutionError := err })
          | (st2, ROut.exhausted) => (st2, ROut.exhausted)
          | (st2, _) => (st2, ROut.thrown)
      | Value.varr xs =>
          match resolveStep fuel st (RCall.rcomp (Value.varr xs)) with
          | (st2, ROut.compOut v ok err) =>
              (st2, ROut.valOut { base with
                resolvedValue := v
                isResolved := ok
                resolutionError := err })
          | (st2, ROut.exhausted) => (st2, ROut.exhausted)
          | (st2, _) => (st2, ROut.thrown)
      | _ => (st, ROut.valOut base)
  | fuel + 1, st, RCall.rcomp v =>
      match v with
      | Value.varr xs =>
          match resolveStep fuel st (RCall.rcarr xs) with
          | (st2, ROut.arrOut vs ok errs) => (st2, ROut.compOut (Value.varr vs) ok (joinErrs errs))
          | (st2, ROut.exhausted) => (st2, ROut.exhausted)
          | (st2, _) => (st2, ROut.thrown)
      | Value.vobj fs =>
          match resolveStep fuel st (RCall.rcobj fs) with
          | (st2, ROut.objOut gs ok errs) => (st2, ROut.compOut (Value.vobj gs) ok (joinErrs errs))
          | (st2, ROut.exhausted) => (st2, ROut.exhausted)
          | (st2, _) => (st2, ROut.thrown)
      | _ => (st, ROut.compOut v true none)
  | fuel + 1, st, RCall.ritem keyPre item =>
      match item with
      | Value.vstr s =>
          if isTokenReferenceStr s then
            match parseTokenReferenceStr s with
            | some refName =>
                if refName = "" then
                  (st, ROut.itemOut item false [preErr keyPre ("Invalid token reference: " ++ s)])
                else
                  match findReferencedToken st.tokenMap refName with
                  | some rt =>
                      match resolveStep fuel st (RCall.rtok rt.name) with
                      | (st2, ROut.tokOut rres) =>
                          match itemFromRes keyPre item rres with
                          | (v, ok, errs) => (st2, ROut.itemOut v ok errs)
                      | (st2, ROut.exhausted) => (st2, ROut.exhausted)
                      | (st2, _) => (st2, ROut.thrown)
                  | none =>
                      (st, ROut.itemOut item false
                        [preErr keyPre ("Referenced token not found: " ++ refName)])
            | none =>
                (st, ROut.itemOut item false [preErr keyPre ("Invalid token reference: " ++ s)])
          else (st, ROut.itemOut item true [])
      | Value.vobj fs =>
          match resolveStep fuel st (RCall.rcomp (Value.vobj fs)) with
          | (st2, ROut.compOut v2 ok2 err2) =>
              (st2, ROut.itemOut v2 ok2 (if ok2 then [] else errListOpt keyPre err2))
          | (st2, ROut.exhausted) => (st2, ROut.exhausted)
          | (st2, _) => (st2, ROut.thrown)
      | Value.varr xs =>
          match resolveStep fuel st (RCall.rcomp (Value.varr xs)) with
          | (st2, ROut.compOut v2 ok2 err2) =>
              (st2, ROut.itemOut v2 ok2 (if ok2 then [] else errListOpt keyPre err2))
          | (st2, ROut.exhausted) => (st2, ROut.exhausted)
          | (st2, _) => (st2, ROut.thrown)
      | _ => (st, ROut.itemOut item true [])
  | fuel + 1, st, RCall.rcarr items =>
      match items with
      | [] => (st, ROut.arrOut [] true [])
      | item :: rest =>
          match resolveStep fuel st (RCall.ritem none item) with
          | (st1, ROut.itemOut v ok errs) =>
              match resolveStep fuel st1 (RCall.rcarr rest) with
              | (st2, ROut.arrOut vs ok2 errs2) =>
                  (st2, ROut.arrOut (v :: vs) (ok && ok2) (errs ++ errs2))
              | (st2, ROut.exhausted) => (st2, ROut.exhausted)
              | (st2, _) => (st2, ROut.thrown)
          | (st1, ROut.exhausted) => (st1, ROut.exhausted)
          | (st1, _) => (st1, ROut.thrown)
  | fuel + 1, st, RCall.rcobj fields =>
      match fields with
      | [] => (st, ROut.objOut [] true [])
      | (k, val) :: rest =>
          match resolveStep fuel st (RCall.ritem (some k) val) with
          | (st1, ROut.itemOut v ok errs) =>
              match resolveStep fuel st1 (RCall.rcobj rest) with
              | (st2, ROut.objOut gs ok2 errs2) =>
                  (st2, ROut.objOut ((k, v) :: gs) (ok && ok2) (errs ++ errs2))
              | (st2, ROut.exhausted) => (st2, ROut.exhausted)
              | (st2, _) => (st2, ROut.thrown)
          | (st1, ROut.exhausted) => (st1, ROut.exhausted)
          | (st1, _) => (st1, ROut.thrown)

/-- `TokenReferenceResolver.resolveToken`. -/
def resolveToken (fuel : Nat) (st : RState) (n : String) : RState × ROut :=
  resolveStep fuel st (RCall.rtok n)

/-- Loop body of `resolveAllTokens`: resolve every map value not already
memoised; a thrown exception (or fuel exhaustion) aborts the loop. -/
def resolveAllGo (fuel : Nat) : List ParsedToken → RState → RState × Bool
  | [], st => (st, true)
  | t :: ts, st =>
      if (mapGet st.resolved t.name).isSome then resolveAllGo fuel ts st
      else
        match resolveStep fuel st (RCall.rtok t.name) with
        | (st1, ROut.tokOut _) => resolveAllGo fuel ts st1
        | (st1, _) => (st1, false)

/-- `TokenReferenceResolver.resolveAllTokens`: iterate over the map values and
return the memoised resolutions; `none` models an abnormal end (exception or
fuel exhaustion). -/
def resolveAllTokens (fuel : Nat) (st : RState) : RState × Option (List ResolvedToken) :=
  match resolveAllGo fuel (mapValues st.tokenMap) st with
  | (st1, true) => (st1, some (mapValues st1.resolved))
  | (st1, false) => (st1, none)

/-! ## Lookup-ladder specification (claim C4) -/

/-- Ladder step (1) of the spec: exact name match against the flat map. -/
def lookupExactName (m : List (String × ParsedToken)) (ref : String) : Option ParsedToken :=
  mapGet m ref

/-- Ladder step (2) of the spec: dot-joined path match.  Tokens are indexed by
their dot-joined path in the same flat map at construction time, so this is a
lookup in the same map. -/
def lookupDotPathKey (m : List (String × ParsedToken)) (ref : String) : Option ParsedToken :=
  mapGet m ref

/-- Ladder step (3): dots converted to dashes. -/
def lookupDotsAsDashes (m : List (String × ParsedToken)) (ref : String) : Option ParsedToken :=
  mapGet m (dotsToDashes ref)

/-- Ladder step (4): dashes converted to dots. -/
def lookupDashesAsDots (m : List (String × ParsedToken)) (ref : String) : Option ParsedToken :=
  mapGet m (dashesToDots ref)

/-- Ladder step (5): linear scan comparing the alias to every token's
dot-joined path. -/
def lookupScanPaths (m : List (String × ParsedToken)) (ref : String) : Option ParsedToken :=
  (mapValues m).find? (fun t => joinDots t.path = ref)

/-- Ladder step (6): trailing-segment match. -/
def lookupLastSegment (m : List (String × ParsedToken)) (ref : String) : Option ParsedToken :=
  lastSegLookup m ref

/-- The six ladder steps tried in order, stopping at the first success. -/
def lookupLadder (m : List (String × ParsedToken)) (ref : String) : Option ParsedToken :=
  (((((lookupExactName m ref).orElse
      (fun _ => lookupDotPathKey m ref)).orElse
      (fun _ => lookupDotsAsDashes m ref)).orElse
      (fun _ => lookupDashesAsDots m ref)).orElse
      (fun _ => lookupScanPaths m ref)).orElse
      (fun _ => lookupLastSegment m ref)

/-- C4: for every alias name looked up during resolution, the referenced token
is found by trying, in this exact order and stopping at the first success,
(1) exact name match against the flat map, (2) dot-joined path match (the same
map indexes dot-joined paths), (3) dots converted to dashes, (4) dashes
converted to dots, (5) a linear scan over every token's dot-joined path,
(6) a trailing-segment match; if all six fail the lookup reports not found. -/
theorem c4_lookup_ladder_order :
    ∀ (m : List (String × ParsedToken)) (ref : String),
      findReferencedToken m ref = lookupLadder m ref := by
  intro m ref
  unfold findReferencedToken lookupLadder lookupExactName lookupDotPathKey lookupDotsAsDashes
    lookupDashesAsDots lookupScanPaths lookupLastSegment
  cases h1 : mapGet m ref with
  | some t => simp [Option.orElse]
  | none =>
      simp only [Option.orElse, h1]
      cases h3 : mapGet m (dotsToDashes ref) with
      | some t => simp [Option.orElse]
      | none =>
          simp only [Option.orElse]
          cases h4 : mapGet m (dashesToDots ref) with
          | some t => simp [Option.orElse]
          | none =>
              simp only [Option.orElse]
              cases h5 : (mapValues m).find? (fun t => joinDots t.path = ref) with
              | some t => simp [Option.orElse]
              | none => simp [Option.orElse]

/-- C10: the resolver's "Invalid token reference format" branch is unreachable:
whenever the reference test classifies a string as an alias, extracting the
enclosed reference name succeeds and yields a non-empty string, because the
test and the extractor use the same pattern. -/
theorem c10_invalid_format_branch_unreachable :
    ∀ s : String, isTokenReferenceStr s = true →
      ∃ r, parseTokenReferenceStr s = some r ∧ r ≠ "" := by
  intro s h
  rw [isTokenReferenceStr_iff_parse_isSome] at h
  obtain ⟨r, hr⟩ := Option.isSome_iff_exists.1 h
  exact ⟨r, hr, parseTokenReferenceStr_ne_empty hr⟩

theorem c10_invalid_format_branch_unreachable_witness :
    isTokenReferenceStr "\x7bcolors.primary\x7d" = true ∧
      ∃ r, parseTokenReferenceStr "\x7bcolors.primary\x7d" = some r ∧ r ≠ "" :=
  ⟨by decide, c10_invalid_format_branch_unreachable "\x7bcolors.primary\x7d" (by decide)⟩

/-- C8 counterexample: the untyped-token grammar rejects a boolean `$value`
(`UntypedTokenSchema` accepts only strings, numbers and plain objects) and,
being `.strict()`, rejects any key outside `$value`/`$description`/`$extensions`
-- both inputs are untagged nodes with a primitive value that the claim says
are accepted. -/
theorem c8_untyped_boolean_rejected :
    isToken (Value.vobj [("$value", Value.vbool true)]) = false ∧
      isToken (Value.vobj [("$value", Value.vstr "x"), ("other", Value.vnum 1)]) = false := by
  constructor <;> decide

/-- C8 (amended): an object node with no type tag is accepted as an untyped
token precisely under the `UntypedTokenSchema` constraints: its keys are
limited to `$value`, `$description`, `$extensions`; `$value` is a string, a
number, or a plain object (booleans are rejected); `$description`, when
present, is a string and `$extensions`, when present, an object. -/
theorem c8_untyped_token_accepted :
    ∀ (fs : List (String × Value)) (x : Value),
      fs.all (fun kv => ["$value", "$description", "$extensions"].contains kv.1) = true →
      getField fs "$value" = some x →
      (isStrVal x || isNumVal x || isObjVal x) = true →
      optFieldStr fs "$description" = true →
      optFieldRecord fs "$extensions" = true →
      isToken (Value.vobj fs) = true := by
  intro fs x hkeys hval hx hd he
  have hu : matchesUntypedToken (Value.vobj fs) = true := by
    simp only [matchesUntypedToken, fieldValueIs, hval, hkeys, hd, he, hx]
    simp
  unfold isToken
  simp [hu]

theorem c8_untyped_token_accepted_witness :
    isToken (Value.vobj [("$value", Value.vstr "#3b82f6")]) = true :=
  c8_untyped_token_accepted [("$value", Value.vstr "#3b82f6")] (Value.vstr "#3b82f6")
    (by decide) rfl (by decide) (by decide) (by decide)

/-- C3: evaluating the code at the failing input.  A composite token `t` whose
object value holds one resolvable nested alias (to token `x`) and one nested
alias that cycles back to `t` makes `resolveToken` raise: the cycle branch
calls `parseTokenReference(token.value)` with `t`'s object value, and
`reference.match` is not a function on a non-string (TypeError), contradicting
the claim that composite resolution failures never raise. -/
theorem c3_composite_cycle_throws :
    (resolveToken 20 (initResolver
      [{ name := "t", path := ["t"],
         value := Value.vobj [("b", Value.vstr "\x7bx\x7d"), ("a", Value.vstr "\x7bt\x7d")] },
       { name := "x", path := ["x"], value := Value.vstr "1" }]) "t").2 = ROut.thrown := by
  rfl

/-- C9 counterexample: for the input list
`[\x7bname "x", path ["y"]\x7d, \x7bname "z", path ["x"]\x7d]` the second
token's dot-joined path key "x" shadows the first token's name key, so
`resolveAllTokens` returns two `ResolvedToken`s both named "z" -- not one
per distinct token name. -/
theorem c9_duplicate_names :
    ∃ l : List ResolvedToken,
      (resolveAllTokens 9 (initResolver
        [{ name := "x", path := ["y"], value := Value.vstr "1" },
         { name := "z", path := ["x"], value := Value.vstr "2" }])).2 = some l ∧
      l.map (fun r => r.name) = ["z", "z"] ∧ ¬ (l.map (fun r => r.name)).Nodup := by
  refine ⟨_, rfl, rfl, by decide⟩

/-- C7: a token with declared type `color` whose first path segment is not a
known category name is classified `colors`; and a token whose first path
segment is a known category name gets that segment back regardless of its
declared type (the known names are lowercase, so lowercasing is the
identity on them). -/
theorem c7_category_classifier :
    (∀ (t : ParsedToken) (s : String),
       t.path.head? = some s → t.type = some "color" →
       knownCategoryNames.contains (strToLower s) = false →
       inferTokenCategory t = some "colors") ∧
    (∀ (t : ParsedToken) (s : String),
       t.path.head? = some s → s ∈ knownCategoryNames →
       inferTokenCategory t = some s) := by
  constructor
  · intro t s hhead htype hknown
    unfold inferTokenCategory
    rw [hhead, htype]
    simp only [hknown]
    simp
  · intro t s hhead hmem
    fin_cases hmem <;> unfold inferTokenCategory <;> rw [hhead]
    · simp [show strToLower "colors" = "colors" from rfl, knownCategoryNames]
    · simp [show strToLower "typography" = "typography" from rfl, knownCategoryNames]
    · simp [show strToLower "spacing" = "spacing" from rfl, knownCategoryNames]
    · simp [show strToLower "borders" = "borders" from rfl, knownCategoryNames]
    · simp [show strToLower "shadows" = "shadows" from rfl, knownCategoryNames]
    · simp [show strToLower "animations" = "animations" from rfl, knownCategoryNames]
    · simp [show strToLower "components" = "components" from rfl, knownCategoryNames]

theorem c7_category_classifier_witness :
    inferTokenCategory
      { name := "brand-primary", path := ["brand", "primary"],
        value := Value.vstr "#3b82f6", type := some "color" } = some "colors" ∧
    inferTokenCategory
      { name := "colors-deep", path := ["colors", "deep"],
        value := Value.vstr "#000000", type := some "shadow" } = some "colors" :=
  ⟨c7_category_classifier.1
      { name := "brand-primary", path := ["brand", "primary"],
        value := Value.vstr "#3b82f6", type := some "color" } "brand" rfl rfl (by decide),
   c7_category_classifier.2
      { name := "colors-deep", path := ["colors", "deep"],
        value := Value.vstr "#000000", type := some "shadow" } "colors" rfl (by decide)⟩

theorem isToken_no_type_no_value (fs : List (String × Value))
    (htype : getField fs "$type" = none) (hval : getField fs "$value" = none) :
    isToken (Value.vobj fs) = false := by
  simp [isToken, matchesSpecificToken, matchesColorToken, matchesDimensionToken,
    matchesFontFamilyToken, matchesFontWeightToken, matchesDurationToken, matchesNumberToken,
    matchesTypographyToken, matchesBorderToken, matchesShadowToken, matchesUntypedToken,
    matchesReferenceToken, fieldIsLit, fieldValueIs, htype, hval]

/-- The flattened record built by `extractTokensFromGroup` for a token node at
path `colors.primary`. -/
def flatTok (t : Value) : ParsedToken :=
  { name := "colors-primary", path := ["colors", "primary"], value := valueOf t,
    type := tokenTypeOf t, description := descriptionOf t, extensions := extensionsOf t }

theorem extract_colors_primary (f : Nat) (t : Value) (st : PState) (ht : isToken t = true) :
    extractTokensFromGroup (f + 3) (Value.vobj [("colors", Value.vobj [("primary", t)])]) [] st
      = { st with tokens := mapSet st.tokens "colors-primary" (flatTok t)
                  categories := catPush st.categories "colors" (flatTok t) } := by
  have hgt : getField [("primary", t)] "$type" = none := rfl
  have hgv : getField [("primary", t)] "$value" = none := rfl
  have hgtok : isToken (Value.vobj [("primary", t)]) = false :=
    isToken_no_type_no_value _ hgt hgv
  have hgrp : isTokenGroupF (f + 2) (Value.vobj [("primary", t)]) = true := by
    simp [isTokenGroupF, isObjectLike, entriesOf, hgtok, ht,
      show strStartsWith "primary" "$" = false from rfl]
  simp only [extractTokensFromGroup, entriesOf, List.foldl,
    show strStartsWith "colors" "$" = false from rfl, Bool.false_eq_true, if_false,
    hgtok, hgrp, if_true]
  simp only [List.nil_append, show strStartsWith "primary" "$" = false from rfl,
    Bool.false_eq_true, if_false, ht, if_true]
  rfl

/-- C6: flattening two documents in sequence that both declare a token at path
`colors.primary` yields exactly one flattened token `colors-primary`, whose
value comes from the later document. -/
theorem c6_last_document_wins :
    ∀ (fuel : Nat) (t1 t2 x1 x2 : Value),
      3 ≤ fuel →
      isToken t1 = true → isToken t2 = true →
      objField t1 "$value" = some x1 → objField t2 "$value" = some x2 →
      x1 ≠ x2 →
      validateFileF fuel (Value.vobj [("colors", Value.vobj [("primary", t1)])]) = true →
      validateFileF fuel (Value.vobj [("colors", Value.vobj [("primary", t2)])]) = true →
      ∃ pt : ParsedToken,
        (parseDocs fuel [Value.vobj [("colors", Value.vobj [("primary", t1)])],
                         Value.vobj [("colors", Value.vobj [("primary", t2)])]]).tokens
          = [("colors-primary", pt)] ∧
        pt.value = x2 ∧ pt.path = ["colors", "primary"] ∧
        allTokensOf (parseDocs fuel [Value.vobj [("colors", Value.vobj [("primary", t1)])],
                                     Value.vobj [("colors", Value.vobj [("primary", t2)])]])
          = [pt] := by
  intro fuel t1 t2 x1 x2 hfuel h1 h2 hv1 hv2 hne hval1 hval2
  obtain ⟨f, rfl⟩ : ∃ f, fuel = f + 3 := ⟨fuel - 3, by omega⟩
  refine ⟨flatTok t2, ?_, ?_, rfl, ?_⟩
  · simp only [parseDocs, List.foldl, parseDoc, hval1, hval2, if_true,
      extract_colors_primary f t1 _ h1, extract_colors_primary f t2 _ h2]
    rfl
  · simp [flatTok, valueOf, hv2]
  · simp only [parseDocs, List.foldl, parseDoc, hval1, hval2, if_true,
      extract_colors_primary f t1 _ h1, extract_colors_primary f t2 _ h2]
    rfl

theorem c6_last_document_wins_witness :
    ∃ pt : ParsedToken,
      (parseDocs 5 [Value.vobj [("colors", Value.vobj [("primary",
            Value.vobj [("$type", Value.vstr "color"), ("$value", Value.vstr "#111111")])])],
         Value.vobj [("colors", Value.vobj [("primary",
            Value.vobj [("$type", Value.vstr "color"), ("$value", Value.vstr "#222222")])])]]).tokens
        = [("colors-primary", pt)] ∧
      pt.value = Value.vstr "#222222" ∧ pt.path = ["colors", "primary"] ∧
      allTokensOf (parseDocs 5 [Value.vobj [("colors", Value.vobj [("primary",
            Value.vobj [("$type", Value.vstr "color"), ("$value", Value.vstr "#111111")])])],
         Value.vobj [("colors", Value.vobj [("primary",
            Value.vobj [("$type", Value.vstr "color"), ("$value", Value.vstr "#222222")])])]])
        = [pt] :=
  c6_last_document_wins 5
    (Value.vobj [("$type", Value.vstr "color"), ("$value", Value.vstr "#111111")])
    (Value.vobj [("$type", Value.vstr "color"), ("$value", Value.vstr "#222222")])
    (Value.vstr "#111111") (Value.vstr "#222222")
    (by omega) (by decide) (by decide) rfl rfl
    (by intro h; injection h with h'; exact absurd h' (by decide))
    (by decide) (by decide)

theorem mkResolvedBase_isResolved (t : ParsedToken) : (mkResolvedBase t).isResolved = true := rfl

theorem mkResolvedBase_hasCirc (t : ParsedToken) :
    (mkResolvedBase t).hasCircularReference = false := rfl

theorem mkResolvedBase_resErr (t : ParsedToken) : (mkResolvedBase t).resolutionError = none := rfl

theorem mkResolvedBase_resolvedValue (t : ParsedToken) :
    (mkResolvedBase t).resolvedValue = t.value := rfl

/-- `refSuccess` on a referent with no circular marking and no error keeps the
referent's resolved value. -/
theorem refSuccess_clean (base : ResolvedToken) (refName : String) (r : ResolvedToken)
    (h1 : r.hasCircularReference = false) (h2 : r.resolutionError = none) :
    refSuccess base refName r
      = { base with
          resolvedValue := r.resolvedValue
          referencePath := some refName
          isResolved := true } := by
  simp [refSuccess, h1, h2, errIncludesCircular]

/-- The record produced for a link of a successfully resolved alias chain:
the base record with the referent's value copied in. -/
def chainMid (x tgt : ParsedToken) (refName : String) : ResolvedToken :=
  { mkResolvedBase x with
    resolvedValue := tgt.value
    referencePath := some refName
    isResolved := true }

theorem chainMid_isResolved (x tgt : ParsedToken) (r : String) :
    (chainMid x tgt r).isResolved = true := rfl

theorem chainMid_hasCirc (x tgt : ParsedToken) (r : String) :
    (chainMid x tgt r).hasCircularReference = false := rfl

theorem chainMid_resErr (x tgt : ParsedToken) (r : String) :
    (chainMid x tgt r).resolutionError = none := rfl

theorem chainMid_resolvedValue (x tgt : ParsedToken) (r : String) :
    (chainMid x tgt r).resolvedValue = tgt.value := rfl

theorem refSuccess_chainMid (x tgt : ParsedToken) (r : String) :
    refSuccess (mkResolvedBase x) r (mkResolvedBase tgt) = chainMid x tgt r := by
  rw [refSuccess_clean _ _ _ (mkResolvedBase_hasCirc tgt) (mkResolvedBase_resErr tgt)]
  rfl

theorem refSuccess_chainMid_link (x tgt mid : ParsedToken) (r r2 : String) :
    refSuccess (mkResolvedBase x) r (chainMid mid tgt r2) = chainMid x tgt r := by
  rw [refSuccess_clean _ _ _ (chainMid_hasCirc mid tgt r2) (chainMid_resErr mid tgt r2)]
  rfl

/-- C5: for every alias chain of length three ending in a literal -- token `a`
references `b`, `b` references `c`, and `c`'s value is a primitive carrying no
alias -- resolving `a` (with enough fuel for the three nested calls) yields
`resolvedValue` equal to `c`'s literal value, `isResolved = true`, and `a`'s
`referencePath` equal to the alias name written in `a`'s value, naming `b`. -/
theorem c5_alias_chain :
    ∀ (fuel : Nat) (m : List (String × ParsedToken)) (a b c : ParsedToken) (sa sb ra rb : String),
      6 ≤ fuel →
      a.value = Value.vstr sa → parseTokenReferenceStr sa = some ra →
      b.value = Value.vstr sb → parseTokenReferenceStr sb = some rb →
      mapGet m a.name = some a → mapGet m b.name = some b → mapGet m c.name = some c →
      findReferencedToken m ra = some b → findReferencedToken m rb = some c →
      (∀ s, c.value = Value.vstr s → isTokenReferenceStr s = false) →
      isObjectLike c.value = false →
      a.name ≠ b.name → a.name ≠ c.name → b.name ≠ c.name →
      ∃ (st' : RState) (r : ResolvedToken),
        resolveToken fuel { tokenMap := m } a.name = (st', ROut.tokOut (some r)) ∧
        r.resolvedValue = c.value ∧ r.isResolved = true ∧ r.referencePath = some ra := by
  intro fuel m a b c sa sb ra rb hfuel hav hpa hbv hpb hma hmb hmc hfa hfb hcstr hcobj hab hac hbc
  obtain ⟨f, rfl⟩ : ∃ f, fuel = f + 6 := ⟨fuel - 6, by omega⟩
  have hsa : isTokenReferenceStr sa = true := by
    rw [isTokenReferenceStr_iff_parse_isSome, hpa]; rfl
  have hsb : isTokenReferenceStr sb = true := by
    rw [isTokenReferenceStr_iff_parse_isSome, hpb]; rfl
  have hra : ra ≠ "" := parseTokenReferenceStr_ne_empty hpa
  have hrb : rb ≠ "" := parseTokenReferenceStr_ne_empty hpb
  -- abbreviations for the records produced along the chain
  have h1 : ∀ st : RState, resolveStep (f + 1) st (RCall.rtval c)
      = (st, ROut.valOut (mkResolvedBase c)) := by
    intro st
    cases hcval : c.value with
    | vstr s =>
        have hs := hcstr s hcval
        simp only [resolveStep, hcval, hs]
        simp
    | vnum n => simp only [resolveStep, hcval]
    | vbool bb => simp only [resolveStep, hcval]
    | vnull => simp only [resolveStep, hcval]
    | varr xs => rw [hcval] at hcobj; simp [isObjectLike] at hcobj
    | vobj fs => rw [hcval] at hcobj; simp [isObjectLike] at hcobj
  -- step 2: resolveToken on c memoises the base record and pops the stack
  have h2 : resolveStep (f + 2) ⟨m, [], [a.name, b.name]⟩ (RCall.rtok c.name)
      = (⟨m, [(c.name, mkResolvedBase c)], [a.name, b.name]⟩,
         ROut.tokOut (some (mkResolvedBase c))) := by
    rw [show f + 2 = (f + 1) + 1 from rfl]
    generalize hg : f + 1 = f1
    rw [hg] at h1
    have hca : (c.name == a.name) = false := beq_eq_false_iff_ne.2 (fun h => hac h.symm)
    have hcb : (c.name == b.name) = false := beq_eq_false_iff_ne.2 (fun h => hbc h.symm)
    have hacb : (a.name == c.name) = false := beq_eq_false_iff_ne.2 hac
    have hbcb : (b.name == c.name) = false := beq_eq_false_iff_ne.2 hbc
    have hcont : ([a.name, b.name].contains c.name) = false := by
      simp [List.contains, List.elem, hca, hcb]
    simp only [resolveStep, mapGet_nil, hmc, hcont, Bool.false_eq_true, if_false]
    rw [h1]
    simp only [commitResolved, mapGet_nil]
    have herase : ([a.name, b.name, c.name].erase c.name) = [a.name, b.name] := by
      simp [List.erase, hacb, hbcb]
    simp only [List.cons_append, List.nil_append]
    rw [herase]
    rfl
  -- step 3: resolveTokenValue on b copies c's literal value
  have h3 : resolveStep (f + 3) ⟨m, [], [a.name, b.name]⟩ (RCall.rtval b)
      = (⟨m, [(c.name, mkResolvedBase c)], [a.name, b.name]⟩,
         ROut.valOut (chainMid b c rb)) := by
    rw [show f + 3 = (f + 2) + 1 from rfl]
    generalize hg : f + 2 = f2
    rw [hg] at h2
    simp only [resolveStep, hbv, hsb, if_true, hpb]
    rw [if_neg hrb, hfb]
    dsimp only
    rw [h2]
    simp only [mkResolvedBase_isResolved, if_true, refSuccess_chainMid]
  -- step 4: resolveToken on b memoises the chain record and pops the stack
  have h4 : resolveStep (f + 4) ⟨m, [], [a.name]⟩ (RCall.rtok b.name)
      = (⟨m, [(c.name, mkResolvedBase c), (b.name, chainMid b c rb)], [a.name]⟩,
         ROut.tokOut (some (chainMid b c rb))) := by
    rw [show f + 4 = (f + 3) + 1 from rfl]
    generalize hg : f + 3 = f3
    rw [hg] at h3
    have hba : (b.name == a.name) = false := beq_eq_false_iff_ne.2 (fun h => hab h.symm)
    have hcont : ([a.name].contains b.name) = false := by
      simp [List.contains, List.elem, hba]
    simp only [resolveStep, mapGet_nil, hmb, hcont, Bool.false_eq_true, if_false]
    simp only [List.cons_append, List.nil_append]
    rw [h3]
    dsimp only
    simp only [commitResolved, mapGet_cons, mapGet_nil]
    rw [if_neg (show ¬ c.name = b.name from fun h => hbc h.symm)]
    have habb : (a.name == b.name) = false := beq_eq_false_iff_ne.2 hab
    have herase : ([a.name, b.name].erase b.name) = [a.name] := by
      simp [List.erase, habb]
    rw [herase]
    simp only [mapSet]
    rw [if_neg (show ¬ c.name = b.name from fun h => hbc h.symm)]
  -- step 5: resolveTokenValue on a copies c's literal value
  have h5 : resolveStep (f + 5) ⟨m, [], [a.name]⟩ (RCall.rtval a)
      = (⟨m, [(c.name, mkResolvedBase c), (b.name, chainMid b c rb)], [a.name]⟩,
         ROut.valOut (chainMid a c ra)) := by
    rw [show f + 5 = (f + 4) + 1 from rfl]
    generalize hg : f + 4 = f4
    rw [hg] at h4
    simp only [resolveStep, hav, hsa, if_true, hpa]
    rw [if_neg hra, hfa]
    dsimp only
    rw [h4]
    simp only [chainMid_isResolved, if_true, refSuccess_chainMid_link]
  -- step 6: resolveToken on a memoises and returns the chain record
  have h6 : resolveStep (f + 6) ⟨m, [], []⟩ (RCall.rtok a.name)
      = (⟨m, [(c.name, mkResolvedBase c), (b.name, chainMid b c rb),
              (a.name, chainMid a c ra)], []⟩,
         ROut.tokOut (some (chainMid a c ra))) := by
    rw [show f + 6 = (f + 5) + 1 from rfl]
    generalize hg : f + 5 = f5
    rw [hg] at h5
    simp only [resolveStep, mapGet_nil]
    rw [hma]
    simp only [List.contains_nil, Bool.false_eq_true, if_false, List.nil_append]
    rw [h5]
    dsimp only
    simp only [commitResolved, mapGet_cons, mapGet_nil]
    rw [if_neg (show ¬ c.name = a.name from fun h => hac h.symm),
        if_neg (show ¬ b.name = a.name from fun h => hab h.symm)]
    have herase : ([a.name].erase a.name) = [] := by simp [List.erase]
    rw [herase]
    simp only [mapSet]
    rw [if_neg (show ¬ c.name = a.name from fun h => hac h.symm),
        if_neg (show ¬ b.name = a.name from fun h => hab h.symm)]
  exact ⟨_, chainMid a c ra, h6, rfl, rfl, rfl⟩

theorem c5_alias_chain_witness :
    ∃ (st' : RState) (r : ResolvedToken),
      resolveToken 9
        { tokenMap := buildTokenMap
            [{ name := "a", path := ["a"], value := Value.vstr "\x7bb\x7d" },
             { name := "b", path := ["b"], value := Value.vstr "\x7bc\x7d" },
             { name := "c", path := ["c"], value := Value.vstr "#ffffff" }] } "a"
        = (st', ROut.tokOut (some r)) ∧
      r.resolvedValue = Value.vstr "#ffffff" ∧ r.isResolved = true ∧
      r.referencePath = some "b" :=
  c5_alias_chain 9
    (buildTokenMap
      [{ name := "a", path := ["a"], value := Value.vstr "\x7bb\x7d" },
       { name := "b", path := ["b"], value := Value.vstr "\x7bc\x7d" },
       { name := "c", path := ["c"], value := Value.vstr "#ffffff" }])
    { name := "a", path := ["a"], value := Value.vstr "\x7bb\x7d" }
    { name := "b", path := ["b"], value := Value.vstr "\x7bc\x7d" }
    { name := "c", path := ["c"], value := Value.vstr "#ffffff" }
    "\x7bb\x7d" "\x7bc\x7d" "b" "c"
    (by omega) rfl rfl rfl rfl rfl rfl rfl rfl rfl
    (by intro s hs; injection hs with h; subst h; decide)
    rfl (by decide) (by decide) (by decide)

theorem cycMark_hasCirc (t : ParsedToken) (msg : String) :
    (cycMark t msg).hasCircularReference = true := rfl

theorem cycMark_isResolved (t : ParsedToken) (msg : String) :
    (cycMark t msg).isResolved = false := rfl

/-- C1: for a cyclic alias pair -- token `a` whose value is an alias to `b`
and token `b` whose value is an alias back to `a` -- `resolveToken` on `a`
terminates at any fuel of at least 5 (the fuel models only the recursion that
actually happens, so a fixed bound independent of the map witnesses
termination), and both tokens' memo entries are marked
`hasCircularReference = true` with `isResolved = false`. -/
theorem c1_cycle_terminates_and_marks :
    ∀ (fuel : Nat) (m : List (String × ParsedToken)) (a b : ParsedToken) (sa sb ra rb : String),
      5 ≤ fuel →
      a.value = Value.vstr sa → parseTokenReferenceStr sa = some ra →
      b.value = Value.vstr sb → parseTokenReferenceStr sb = some rb →
      mapGet m a.name = some a → mapGet m b.name = some b →
      findReferencedToken m ra = some b → findReferencedToken m rb = some a →
      a.name ≠ b.name →
      ∃ (st' : RState) (r : ResolvedToken),
        resolveToken fuel { tokenMap := m } a.name = (st', ROut.tokOut (some r)) ∧
        r.hasCircularReference = true ∧ r.isResolved = false ∧
        (∃ rA, mapGet st'.resolved a.name = some rA ∧
          rA.hasCircularReference = true ∧ rA.isResolved = false) ∧
        (∃ rB, mapGet st'.resolved b.name = some rB ∧
          rB.hasCircularReference = true ∧ rB.isResolved = false) := by
  intro fuel m a b sa sb ra rb hfuel hav hpa hbv hpb hma hmb hfa hfb hab
  obtain ⟨f, rfl⟩ : ∃ f, fuel = f + 5 := ⟨fuel - 5, by omega⟩
  have hsa : isTokenReferenceStr sa = true := by
    rw [isTokenReferenceStr_iff_parse_isSome, hpa]; rfl
  have hsb : isTokenReferenceStr sb = true := by
    rw [isTokenReferenceStr_iff_parse_isSome, hpb]; rfl
  have hra : ra ≠ "" := parseTokenReferenceStr_ne_empty hpa
  have hrb : rb ≠ "" := parseTokenReferenceStr_ne_empty hpb
  have hba : ¬ b.name = a.name := fun h => hab h.symm
  -- step A: re-entrant resolveToken on a hits the cycle branch and marks a and b
  have hA : resolveStep (f + 1) ⟨m, [], [a.name, b.name]⟩ (RCall.rtok a.name)
      = (⟨m, [(a.name, cycMark a ("Circular reference detected: "
                ++ joinArrow [a.name, b.name, a.name])),
              (b.name, cycMark b ("Circular reference detected: "
                ++ joinArrow [a.name, b.name, a.name]))], [a.name, b.name]⟩,
         ROut.tokOut (some (cycMark a ("Circular reference detected: "
                ++ joinArrow [a.name, b.name, a.name])))) := by
    have hcont : ([a.name, b.name].contains a.name) = true := by
      simp [List.contains, List.elem]
    simp only [resolveStep, mapGet_nil]
    rw [hma]
    simp only [hcont, if_true, cycleResolve]
    rw [hav]
    dsimp only
    rw [hpa]
    dsimp only
    rw [hfa]
    dsimp only
    simp only [List.cons_append, List.nil_append]
    have hmark : markChain m [] [a.name, b.name, a.name]
        ("Circular reference detected: " ++ joinArrow [a.name, b.name, a.name])
        = [(a.name, cycMark a ("Circular reference detected: "
             ++ joinArrow [a.name, b.name, a.name])),
           (b.name, cycMark b ("Circular reference detected: "
             ++ joinArrow [a.name, b.name, a.name]))] := by
      simp only [markChain, List.foldl]
      rw [hma, hmb]
      dsimp only
      simp [mapSet, hab]
    rw [hmark]
    simp [mapSet, mapGet_cons, hab, hba]
  generalize hmsgeq : ("Circular reference detected: "
      ++ joinArrow [a.name, b.name, a.name]) = msg at hA
  -- step B: resolveTokenValue on b sees the cycle-marked a and fails
  have hB : resolveStep (f + 2) ⟨m, [], [a.name, b.name]⟩ (RCall.rtval b)
      = (⟨m, [(a.name, cycMark a msg), (b.name, cycMark b msg)], [a.name, b.name]⟩,
         ROut.valOut (refFailure (mkResolvedBase b) rb (some (cycMark a msg)))) := by
    rw [show f + 2 = (f + 1) + 1 from rfl]
    generalize hg : f + 1 = f1
    rw [hg] at hA
    simp only [resolveStep, hbv, hsb, if_true, hpb]
    rw [if_neg hrb, hfb]
    dsimp only
    rw [hA]
    simp only [cycMark_isResolved, Bool.false_eq_true, if_false]
  -- step C: resolveToken on b keeps the circular memo entry
  have hC : resolveStep (f + 3) ⟨m, [], [a.name]⟩ (RCall.rtok b.name)
      = (⟨m, [(a.name, cycMark a msg), (b.name, cycMark b msg)], [a.name]⟩,
         ROut.tokOut (some (cycMark b msg))) := by
    rw [show f + 3 = (f + 2) + 1 from rfl]
    generalize hg : f + 2 = f2
    rw [hg] at hB
    have hcont : ([a.name].contains b.name) = false := by
      have hbeq : (b.name == a.name) = false := beq_eq_false_iff_ne.2 hba
      simp [List.contains, List.elem, hbeq]
    simp only [resolveStep, mapGet_nil]
    rw [hmb]
    simp only [hcont, Bool.false_eq_true, if_false, List.cons_append, List.nil_append]
    rw [hB]
    dsimp only
    simp only [commitResolved]
    have hget : mapGet [(a.name, cycMark a msg), (b.name, cycMark b msg)] b.name
        = some (cycMark b msg) := by
      simp [mapGet_cons, hab]
    rw [hget]
    simp only [cycMark_hasCirc, Bool.true_or, if_true]
    have herase : ([a.name, b.name].erase b.name) = [a.name] := by
      simp [List.erase, beq_eq_false_iff_ne.2 hab]
    rw [herase]
  -- step D: resolveTokenValue on a sees the cycle-marked b and fails
  have hD : resolveStep (f + 4) ⟨m, [], [a.name]⟩ (RCall.rtval a)
      = (⟨m, [(a.name, cycMark a msg), (b.name, cycMark b msg)], [a.name]⟩,
         ROut.valOut (refFailure (mkResolvedBase a) ra (some (cycMark b msg)))) := by
    rw [show f + 4 = (f + 3) + 1 from rfl]
    generalize hg : f + 3 = f3
    rw [hg] at hC
    simp only [resolveStep, hav, hsa, if_true, hpa]
    rw [if_neg hra, hfa]
    dsimp only
    rw [hC]
    simp only [cycMark_isResolved, Bool.false_eq_true, if_false]
  -- step E: the outer resolveToken on a returns the circular memo entry
  have hE : resolveStep (f + 5) ⟨m, [], []⟩ (RCall.rtok a.name)
      = (⟨m, [(a.name, cycMark a msg), (b.name, cycMark b msg)], []⟩,
         ROut.tokOut (some (cycMark a msg))) := by
    rw [show f + 5 = (f + 4) + 1 from rfl]
    generalize hg : f + 4 = f4
    rw [hg] at hD
    simp only [resolveStep, mapGet_nil]
    rw [hma]
    simp only [List.contains_nil, Bool.false_eq_true, if_false, List.nil_append]
    rw [hD]
    dsimp only
    simp only [commitResolved]
    have hget : mapGet [(a.name, cycMark a msg), (b.name, cycMark b msg)] a.name
        = some (cycMark a msg) := by
      simp [mapGet_cons]
    rw [hget]
    simp only [cycMark_hasCirc, Bool.true_or, if_true]
    have herase : ([a.name].erase a.name) = ([] : List String) := by
      simp [List.erase]
    rw [herase]
  refine ⟨⟨m, [(a.name, cycMark a msg), (b.name, cycMark b msg)], []⟩, cycMark a msg,
    hE, rfl, rfl, ⟨cycMark a msg, ?_, rfl, rfl⟩, ⟨cycMark b msg, ?_, rfl, rfl⟩⟩
  · simp [mapGet_cons]
  · simp [mapGet_cons, hab]

theorem c1_cycle_terminates_and_marks_witness :
    ∃ (st' : RState) (r : ResolvedToken),
      resolveToken 9
        { tokenMap := buildTokenMap
            [{ name := "colors-a", path := ["colors", "a"],
               value := Value.vstr "\x7bcolors.b\x7d", type := some "color" },
             { name := "colors-b", path := ["colors", "b"],
               value := Value.vstr "\x7bcolors.a\x7d", type := some "color" }] } "colors-a"
        = (st', ROut.tokOut (some r)) ∧
      r.hasCircularReference = true ∧ r.isResolved = false ∧
      (∃ rA, mapGet st'.resolved "colors-a" = some rA ∧
        rA.hasCircularReference = true ∧ rA.isResolved = false) ∧
      (∃ rB, mapGet st'.resolved "colors-b" = some rB ∧
        rB.hasCircularReference = true ∧ rB.isResolved = false) :=
  c1_cycle_terminates_and_marks 9
    (buildTokenMap
      [{ name := "colors-a", path := ["colors", "a"],
         value := Value.vstr "\x7bcolors.b\x7d", type := some "color" },
       { name := "colors-b", path := ["colors", "b"],
         value := Value.vstr "\x7bcolors.a\x7d", type := some "color" }])
    { name := "colors-a", path := ["colors", "a"],
      value := Value.vstr "\x7bcolors.b\x7d", type := some "color" }
    { name := "colors-b", path := ["colors", "b"],
      value := Value.vstr "\x7bcolors.a\x7d", type := some "color" }
    "\x7bcolors.b\x7d" "\x7bcolors.a\x7d" "colors.b" "colors.a"
    (by omega) rfl rfl rfl rfl rfl rfl rfl rfl (by decide)

/-! ## Memoisation and the circular-marking invariant (claim C2) -/

/-- Entries marked with a circular reference are never replaced by
non-circular ones when the memo map evolves from `s` to `t`. -/
def circKept (s t : List (String × ResolvedToken)) : Prop :=
  ∀ n r, mapGet s n = some r → r.hasCircularReference = true →
    ∃ r', mapGet t n = some r' ∧ r'.hasCircularReference = true

theorem circKept_refl (s : List (String × ResolvedToken)) : circKept s s :=
  fun _n r h hc => ⟨r, h, hc⟩

theorem circKept_trans {s t u : List (String × ResolvedToken)}
    (h1 : circKept s t) (h2 : circKept t u) : circKept s u := by
  intro n r h hc
  obtain ⟨r', h', hc'⟩ := h1 n r h hc
  exact h2 n r' h' hc'

theorem circKept_mapSet_circ {s : List (String × ResolvedToken)} {k : String}
    {v : ResolvedToken} (hv : v.hasCircularReference = true) :
    circKept s (mapSet s k v) := by
  intro n r h hc
  rw [mapGet_mapSet]
  by_cases hk : k = n
  · exact ⟨v, by simp [hk], hv⟩
  · exact ⟨r, by simp [hk, h], hc⟩

theorem circKept_mapSet_guard {s : List (String × ResolvedToken)} {k : String}
    {v : ResolvedToken}
    (hex : mapGet s k = none ∨ ∃ e, mapGet s k = some e ∧ e.hasCircularReference = false) :
    circKept s (mapSet s k v) := by
  intro n r h hc
  rw [mapGet_mapSet]
  by_cases hk : k = n
  · subst hk
    rcases hex with hnone | ⟨e, he, hef⟩
    · rw [hnone] at h; exact absurd h (by simp)
    · rw [he] at h
      injection h with h'
      subst h'
      rw [hef] at hc
      exact absurd hc (by simp)
  · exact ⟨r, by simp [hk, h], hc⟩

theorem circKept_markChain (tm : List (String × ParsedToken))
    (s : List (String × ResolvedToken)) (chain : List String) (msg : String) :
    circKept s (markChain tm s chain msg) := by
  induction chain generalizing s with
  | nil => exact circKept_refl s
  | cons nm rest ih =>
      unfold markChain
      simp only [List.foldl]
      cases hm : mapGet tm nm with
      | none =>
          have := ih s
          unfold markChain at this
          exact this
      | some t =>
          have step : circKept s (mapSet s nm (cycMark t msg)) :=
            circKept_mapSet_circ (cycMark_hasCirc t msg)
          have tail := ih (mapSet s nm (cycMark t msg))
          unfold markChain at tail
          exact circKept_trans step tail

theorem circKept_commit (st : RState) (n : String) (rv : ResolvedToken) :
    circKept st.resolved (((commitResolved st n rv).1).resolved) := by
  unfold commitResolved
  cases hm : mapGet st.resolved n with
  | none =>
      simp only []
      exact circKept_mapSet_guard (Or.inl hm)
  | some ex =>
      by_cases hg : (ex.hasCircularReference || errIncludesCircular ex.resolutionError) = true
      · simp only [hg, if_true]
        exact circKept_refl _
      · simp only [hg, Bool.false_eq_true, if_false]
        simp only [Bool.or_eq_true, not_or, Bool.not_eq_true] at hg
        exact circKept_mapSet_guard (Or.inr ⟨ex, hm, hg.1⟩)

theorem circKept_cycle (st : RState) (token : ParsedToken) (n : String) :
    circKept st.resolved (((cycleResolve st token n).1).resolved) := by
  unfold cycleResolve
  cases hv : token.value with
  | vstr s =>
      simp only []
      cases hp : parseTokenReferenceStr s with
      | none =>
          simp only []
          exact circKept_markChain _ _ _ _
      | some ref =>
          simp only []
          cases hf : findReferencedToken st.tokenMap ref with
          | none => exact circKept_markChain _ _ _ _
          | some cp =>
              exact circKept_trans (circKept_markChain _ _ _ _)
                (circKept_mapSet_circ (cycMark_hasCirc cp _))
  | vnum k => exact circKept_markChain _ _ _ _
  | vbool k => exact circKept_markChain _ _ _ _
  | vnull => exact circKept_markChain _ _ _ _
  | varr k => exact circKept_markChain _ _ _ _
  | vobj k => exact circKept_markChain _ _ _ _

/-- Every resolver step preserves circular markings in the memo map: an entry
with `hasCircularReference = true` is never replaced by a non-circular one. -/
theorem resolveStep_circKept :
    ∀ (fuel : Nat) (st : RState) (c : RCall),
      circKept st.resolved (((resolveStep fuel st c).1).resolved) := by
  intro fuel
  induction fuel with
  | zero => intro st c; exact circKept_refl _
  | succ f ih =>
      intro st c
      cases c with
      | rtok n =>
          simp only [resolveStep]
          cases hm : mapGet st.resolved n with
          | some r => exact circKept_refl _
          | none =>
              cases ht : mapGet st.tokenMap n with
              | none => exact circKept_refl _
              | some token =>
                  by_cases hstk : (st.stack.contains n) = true
                  · simp only [hstk, if_true]
                    exact circKept_cycle st token n
                  · simp only [hstk, Bool.false_eq_true, if_false]
                    have hbase := ih { st with stack := st.stack ++ [n] } (RCall.rtval token)
                    rcases hrec : resolveStep f { st with stack := st.stack ++ [n] }
                        (RCall.rtval token) with ⟨st2, out2⟩
                    rw [hrec] at hbase
                    have hst2 : circKept st.resolved st2.resolved := hbase
                    cases out2 with
                    | valOut rv =>
                        exact circKept_trans hst2 (circKept_commit st2 n rv)
                    | exhausted => exact hst2
                    | thrown => exact hst2
                    | tokOut r => exact hst2
                    | compOut v ok err => exact hst2
                    | itemOut v ok errs => exact hst2
                    | arrOut vs ok errs => exact hst2
                    | objOut fs ok errs => exact hst2
      | rtval token =>
          simp only [resolveStep]
          cases hv : token.value with
          | vstr s =>
              by_cases hr : (isTokenReferenceStr s) = true
              · simp only [hr, if_true]
                cases hp : parseTokenReferenceStr s with
                | none => exact circKept_refl _
                | some refName =>
                    by_cases hrn : refName = ""
                    · simp only [hrn, if_pos rfl]
                      exact circKept_refl _
                    · simp only [if_neg hrn]
                      cases hf : findReferencedToken st.tokenMap refName with
                      | none => exact circKept_refl _
                      | some rt =>
                          dsimp only
                          have hbase := ih st (RCall.rtok rt.name)
                          rcases hrec : resolveStep f st (RCall.rtok rt.name) with ⟨st2, out2⟩
                          rw [hrec] at hbase
                          cases out2 <;> exact hbase
              · simp only [hr, Bool.false_eq_true, if_false]
                exact circKept_refl _
          | vnum k => exact circKept_refl _
          | vbool k => exact circKept_refl _
          | vnull => exact circKept_refl _
          | varr xs =>
              dsimp only
              have hbase := ih st (RCall.rcomp (Value.varr xs))
              rcases hrec : resolveStep f st (RCall.rcomp (Value.varr xs)) with ⟨st2, out2⟩
              rw [hrec] at hbase
              cases out2 <;> exact hbase
          | vobj fs =>
              dsimp only
              have hbase := ih st (RCall.rcomp (Value.vobj fs))
              rcases hrec : resolveStep f st (RCall.rcomp (Value.vobj fs)) with ⟨st2, out2⟩
              rw [hrec] at hbase
              cases out2 <;> exact hbase
      | rcomp v =>
          simp only [resolveStep]
          cases v with
          | varr xs =>
              dsimp only
              have hbase := ih st (RCall.rcarr xs)
              rcases hrec : resolveStep f st (RCall.rcarr xs) with ⟨st2, out2⟩
              rw [hrec] at hbase
              cases out2 <;> exact hbase
          | vobj fs =>
              dsimp only
              have hbase := ih st (RCall.rcobj fs)
              rcases hrec : resolveStep f st (RCall.rcobj fs) with ⟨st2, out2⟩
              rw [hrec] at hbase
              cases out2 <;> exact hbase
          | vstr s => exact circKept_refl _
          | vnum k => exact circKept_refl _
          | vbool k => exact circKept_refl _
          | vnull => exact circKept_refl _
      | ritem keyPre item =>
          simp only [resolveStep]
          cases item with
          | vstr s =>
              by_cases hr : (isTokenReferenceStr s) = true
              · simp only [hr, if_true]
                cases hp : parseTokenReferenceStr s with
                | none => exact circKept_refl _
                | some refName =>
                    by_cases hrn : refName = ""
                    · simp only [hrn, if_pos rfl]
                      exact circKept_refl _
                    · simp only [if_neg hrn]
                      cases hf : findReferencedToken st.tokenMap refName with
                      | none => exact circKept_refl _
                      | some rt =>
                          dsimp only
                          have hbase := ih st (RCall.rtok rt.name)
                          rcases hrec : resolveStep f st (RCall.rtok rt.name) with ⟨st2, out2⟩
                          rw [hrec] at hbase
                          cases out2 <;> exact hbase
              · simp only [hr, Bool.false_eq_true, if_false]
                exact circKept_refl _
          | vobj fs =>
              dsimp only
              have hbase := ih st (RCall.rcomp (Value.vobj fs))
              rcases hrec : resolveStep f st (RCall.rcomp (Value.vobj fs)) with ⟨st2, out2⟩
              rw [hrec] at hbase
              cases out2 <;> exact hbase
          | varr xs =>
              dsimp only
              have hbase := ih st (RCall.rcomp (Value.varr xs))
              rcases hrec : resolveStep f st (RCall.rcomp (Value.varr xs)) with ⟨st2, out2⟩
              rw [hrec] at hbase
              cases out2 <;> exact hbase
          | vnum k => exact circKept_refl _
          | vbool k => exact circKept_refl _
          | vnull => exact circKept_refl _
      | rcarr items =>
          simp only [resolveStep]
          cases items with
          | nil => exact circKept_refl _
          | cons item rest =>
              dsimp only
              have hbase := ih st (RCall.ritem none item)
              rcases hrec : resolveStep f st (RCall.ritem none item) with ⟨st1, out1⟩
              rw [hrec] at hbase
              cases out1 with
              | itemOut v ok errs =>
                  dsimp only
                  have htail := ih st1 (RCall.rcarr rest)
                  rcases hrec2 : resolveStep f st1 (RCall.rcarr rest) with ⟨st2, out2⟩
                  rw [hrec2] at htail
                  cases out2 <;> exact circKept_trans hbase htail
              | exhausted => exact hbase
              | thrown => exact hbase
              | tokOut r => exact hbase
              | valOut rv => exact hbase
              | compOut v ok err => exact hbase
              | arrOut vs ok errs => exact hbase
              | objOut gs ok errs => exact hbase
      | rcobj fields =>
          simp only [resolveStep]
          cases fields with
          | nil => exact circKept_refl _
          | cons kv rest =>
              rcases kv with ⟨k, val⟩
              dsimp only
              have hbase := ih st (RCall.ritem (some k) val)
              rcases hrec : resolveStep f st (RCall.ritem (some k) val) with ⟨st1, out1⟩
              rw [hrec] at hbase
              cases out1 with
              | itemOut v ok errs =>
                  dsimp only
                  have htail := ih st1 (RCall.rcobj rest)
                  rcases hrec2 : resolveStep f st1 (RCall.rcobj rest) with ⟨st2, out2⟩
                  rw [hrec2] at htail
                  cases out2 <;> exact circKept_trans hbase htail
              | exhausted => exact hbase
              | thrown => exact hbase
              | tokOut r => exact hbase
              | valOut rv => exact hbase
              | compOut v ok err => exact hbase
              | arrOut vs ok errs => exact hbase
              | objOut gs ok errs => exact hbase

/-- A memo hit returns the cached record and leaves the state unchanged. -/
theorem resolveStep_tok_hit (fuel : Nat) (st : RState) (n : String) (r : ResolvedToken)
    (hm : mapGet st.resolved n = some r) (hf : 1 ≤ fuel) :
    resolveStep fuel st (RCall.rtok n) = (st, ROut.tokOut (some r)) := by
  obtain ⟨f, rfl⟩ : ∃ f, fuel = f + 1 := ⟨fuel - 1, by omega⟩
  simp only [resolveStep, hm]

/-- Whenever `resolveToken` produces a record, that record is in the memo map
of the resulting state under the requested name. -/
theorem resolveStep_tok_result_memoised (fuel : Nat) (st st' : RState) (n : String)
    (r : ResolvedToken)
    (h : resolveStep fuel st (RCall.rtok n) = (st', ROut.tokOut (some r))) :
    mapGet st'.resolved n = some r := by
  cases fuel with
  | zero =>
      simp only [resolveStep] at h
      have h2 := congrArg Prod.snd h
      simp at h2
  | succ f =>
      simp only [resolveStep] at h
      cases hm : mapGet st.resolved n with
      | some r0 =>
          rw [hm] at h
          dsimp only at h
          injection h with h1 h2
          injection h2 with h3
          injection h3 with h4
          subst h1; subst h4
          exact hm
      | none =>
          rw [hm] at h
          dsimp only at h
          cases ht : mapGet st.tokenMap n with
          | none =>
              rw [ht] at h
              dsimp only at h
              injection h with h1 h2
              injection h2 with h3
              exact absurd h3 (by simp)
          | some token =>
              rw [ht] at h
              dsimp only at h
              by_cases hstk : (st.stack.contains n) = true
              · rw [if_pos hstk] at h
                unfold cycleResolve at h
                cases hv : token.value with
                | vstr s =>
                    rw [hv] at h
                    dsimp only at h
                    injection h with h1 h2
                    injection h2 with h3
                    rw [← h1]
                    exact h3
                | vnum k =>
                    rw [hv] at h; dsimp only at h
                    injection h with h1 h2; exact absurd h2 (by simp)
                | vbool k =>
                    rw [hv] at h; dsimp only at h
                    injection h with h1 h2; exact absurd h2 (by simp)
                | vnull =>
                    rw [hv] at h; dsimp only at h
                    injection h with h1 h2; exact absurd h2 (by simp)
                | varr k =>
                    rw [hv] at h; dsimp only at h
                    injection h with h1 h2; exact absurd h2 (by simp)
                | vobj k =>
                    rw [hv] at h; dsimp only at h
                    injection h with h1 h2; exact absurd h2 (by simp)
              · rw [if_neg hstk] at h
                rcases hrec : resolveStep f { st with stack := st.stack ++ [n] }
                    (RCall.rtval token) with ⟨st2, out2⟩
                rw [hrec] at h
                cases out2 with
                | valOut rv =>
                    dsimp only at h
                    unfold commitResolved at h
                    cases hm2 : mapGet st2.resolved n with
                    | some ex =>
                        rw [hm2] at h
                        dsimp only at h
                        by_cases hg : (ex.hasCircularReference ||
                            errIncludesCircular ex.resolutionError) = true
                        · rw [if_pos hg] at h
                          injection h with h1 h2
                          injection h2 with h3
                          injection h3 with h4
                          rw [← h1]
                          dsimp only
                          rw [hm2, h4]
                        · rw [if_neg hg] at h
                          injection h with h1 h2
                          injection h2 with h3
                          injection h3 with h4
                          rw [← h1]
                          dsimp only
                          rw [mapGet_mapSet]
                          simp [h4]
                    | none =>
                        rw [hm2] at h
                        dsimp only at h
                        injection h with h1 h2
                        injection h2 with h3
                        injection h3 with h4
                        rw [← h1]
                        dsimp only
                        rw [mapGet_mapSet]
                        simp [h4]
                | exhausted =>
                    dsimp only at h
                    injection h with h1 h2; exact absurd h2 (by simp)
                | thrown =>
                    dsimp only at h
                    injection h with h1 h2; exact absurd h2 (by simp)
                | tokOut rr =>
                    dsimp only at h
                    injection h with h1 h2; exact absurd h2 (by simp)
                | compOut v ok err =>
                    dsimp only at h
                    injection h with h1 h2; exact absurd h2 (by simp)
                | itemOut v ok errs =>
                    dsimp only at h
                    injection h with h1 h2; exact absurd h2 (by simp)
                | arrOut vs ok errs =>
                    dsimp only at h
                    injection h with h1 h2; exact absurd h2 (by simp)
                | objOut gs ok errs =>
                    dsimp only at h
                    injection h with h1 h2; exact absurd h2 (by simp)

/-- C2: once `resolveToken` has produced a result for a name, that result is
memoised and a second call returns it unchanged without recomputation (the
state is untouched); and a memo entry marked `hasCircularReference` is never
replaced by a non-circular record by any later resolver step, whether a direct
`resolveToken` call or one triggered while resolving another token. -/
theorem c2_memoised_and_circular_protected :
    (∀ (fuel fuel' : Nat) (st st' : RState) (n : String) (r : ResolvedToken),
       resolveToken fuel st n = (st', ROut.tokOut (some r)) → 1 ≤ fuel' →
       resolveToken fuel' st' n = (st', ROut.tokOut (some r))) ∧
    (∀ (fuel : Nat) (st : RState) (c : RCall) (n : String) (r : ResolvedToken),
       mapGet st.resolved n = some r → r.hasCircularReference = true →
       ∃ r', mapGet (((resolveStep fuel st c).1).resolved) n = some r' ∧
         r'.hasCircularReference = true) := by
  constructor
  · intro fuel fuel' st st' n r h hf
    have hmem := resolveStep_tok_result_memoised fuel st st' n r h
    exact resolveStep_tok_hit fuel' st' n r hmem hf
  · intro fuel st c n r hm hc
    exact resolveStep_circKept fuel st c n r hm hc

theorem c2_memoised_and_circular_protected_witness :
    resolveToken 2
        ((resolveToken 3 (initResolver
          [{ name := "x", path := ["x"], value := Value.vstr "1" }]) "x").1) "x"
      = ((resolveToken 3 (initResolver
          [{ name := "x", path := ["x"], value := Value.vstr "1" }]) "x").1,
         ROut.tokOut (some (mkResolvedBase
           { name := "x", path := ["x"], value := Value.vstr "1" }))) ∧
    (∃ r', mapGet (((resolveStep 3
        { tokenMap := []
          resolved := [("q", cycMark { name := "q", path := ["q"], value := Value.vstr "1" }
            "Circular reference detected: q → q")]
          stack := [] } (RCall.rtok "q")).1).resolved) "q" = some r' ∧
      r'.hasCircularReference = true) :=
  ⟨c2_memoised_and_circular_protected.1 3 2
      (initResolver [{ name := "x", path := ["x"], value := Value.vstr "1" }])
      ((resolveToken 3 (initResolver
        [{ name := "x", path := ["x"], value := Value.vstr "1" }]) "x").1)
      "x" (mkResolvedBase { name := "x", path := ["x"], value := Value.vstr "1" })
      rfl (by omega),
   c2_memoised_and_circular_protected.2 3
      { tokenMap := []
        resolved := [("q", cycMark { name := "q", path := ["q"], value := Value.vstr "1" }
          "Circular reference detected: q → q")]
        stack := [] } (RCall.rtok "q") "q"
      (cycMark { name := "q", path := ["q"], value := Value.vstr "1" }
        "Circular reference detected: q → q") rfl rfl⟩

/-! ## Name consistency of the memo map (claim C9, amended) -/

/-- Looking `n` up in the token map only ever yields a token named `n`. -/
def nameKeyOk (tm : List (String × ParsedToken)) (n : String) : Prop :=
  ∀ t', mapGet tm n = some t' → t'.name = n

/-- No token's name key is shadowed: looking up any stored token's name yields
a token bearing that name. -/
def goodMap (tm : List (String × ParsedToken)) : Prop :=
  ∀ t ∈ mapValues tm, ∃ t', mapGet tm t.name = some t' ∧ t'.name = t.name

def stackOk (tm : List (String × ParsedToken)) (stk : List String) : Prop :=
  ∀ n ∈ stk, nameKeyOk tm n

def callOk (tm : List (String × ParsedToken)) : RCall → Prop
  | RCall.rtok n => nameKeyOk tm n
  | _ => True

/-- The memo map evolves only by writes keyed by the written record's name. -/
def goodEvolution (s t : List (String × ResolvedToken)) : Prop :=
  ∀ k v, mapGet t k = some v → mapGet s k = some v ∨ v.name = k

def namesOk (res : List (String × ResolvedToken)) : Prop :=
  ∀ k r, mapGet res k = some r → r.name = k

theorem goodEvolution_refl (s : List (String × ResolvedToken)) : goodEvolution s s :=
  fun _k _v h => Or.inl h

theorem goodEvolution_trans {s t u : List (String × ResolvedToken)}
    (h1 : goodEvolution s t) (h2 : goodEvolution t u) : goodEvolution s u := by
  intro k v h
  rcases h2 k v h with h' | h'
  · exact h1 k v h'
  · exact Or.inr h'

theorem goodEvolution_mapSet {s : List (String × ResolvedToken)} {k : String}
    {v : ResolvedToken} (hv : v.name = k) : goodEvolution s (mapSet s k v) := by
  intro k' v' h
  rw [mapGet_mapSet] at h
  by_cases hk : k = k'
  · simp [hk] at h
    subst h
    exact Or.inr (hk ▸ hv)
  · simp [hk] at h
    exact Or.inl h

theorem namesOk_of_goodEvolution {s t : List (String × ResolvedToken)}
    (hs : namesOk s) (h : goodEvolution s t) : namesOk t := by
  intro k r hk
  rcases h k r hk with h' | h'
  · exact hs k r h'
  · exact h'

theorem goodMap_nameKeyOk {tm : List (String × ParsedToken)} {t : ParsedToken}
    (hg : goodMap tm) (ht : t ∈ mapValues tm) : nameKeyOk tm t.name := by
  intro t' h
  obtain ⟨t'', h'', hn⟩ := hg t ht
  rw [h''] at h
  injection h with h'
  subst h'
  exact hn

theorem find?_mem_values {m : List (String × ParsedToken)} {p : ParsedToken → Bool}
    {t : ParsedToken} (h : (mapValues m).find? p = some t) : t ∈ mapValues m :=
  List.mem_of_find?_eq_some h

theorem lastSegLookup_mem {m : List (String × ParsedToken)} {ref : String} {t : ParsedToken}
    (h : lastSegLookup m ref = some t) : t ∈ mapValues m := by
  unfold lastSegLookup at h
  cases hl : (strSplit ref (fun c => c == '.' || c == '-')).getLast? with
  | none => rw [hl] at h; exact absurd h (by simp)
  | some seg =>
      rw [hl] at h
      dsimp only at h
      by_cases hs : seg = ""
      · rw [if_pos hs] at h; exact absurd h (by simp)
      · rw [if_neg hs] at h
        exact find?_mem_values h

theorem findReferencedToken_mem {m : List (String × ParsedToken)} {ref : String}
    {t : ParsedToken} (h : findReferencedToken m ref = some t) : t ∈ mapValues m := by
  unfold findReferencedToken at h
  cases h1 : mapGet m ref with
  | some t1 =>
      rw [h1] at h; injection h with h'; subst h'; exact mapGet_mem h1
  | none =>
      rw [h1] at h
      cases h3 : mapGet m (dotsToDashes ref) with
      | some t3 =>
          rw [h3] at h; injection h with h'; subst h'; exact mapGet_mem h3
      | none =>
          rw [h3] at h
          cases h4 : mapGet m (dashesToDots ref) with
          | some t4 =>
              rw [h4] at h; injection h with h'; subst h'; exact mapGet_mem h4
          | none =>
              rw [h4] at h
              cases h5 : (mapValues m).find? (fun t => joinDots t.path = ref) with
              | some t5 =>
                  rw [h5] at h; injection h with h'; subst h'; exact find?_mem_values h5
              | none =>
                  rw [h5] at h
                  exact lastSegLookup_mem h

theorem nodup_markChain (tm : List (String × ParsedToken))
    (s : List (String × ResolvedToken)) (chain : List String) (msg : String)
    (h : (mapKeys s).Nodup) : (mapKeys (markChain tm s chain msg)).Nodup := by
  induction chain generalizing s with
  | nil => exact h
  | cons nm rest ih =>
      unfold markChain
      simp only [List.foldl]
      cases hm : mapGet tm nm with
      | none =>
          have := ih s h
          unfold markChain at this
          exact this
      | some t =>
          have := ih (mapSet s nm (cycMark t msg)) (nodup_mapKeys_mapSet _ _ _ h)
          unfold markChain at this
          exact this

theorem goodEvolution_markChain (tm : List (String × ParsedToken))
    (s : List (String × ResolvedToken)) (chain : List String) (msg : String)
    (hchain : ∀ nm ∈ chain, nameKeyOk tm nm) :
    goodEvolution s (markChain tm s chain msg) := by
  induction chain generalizing s with
  | nil => exact goodEvolution_refl s
  | cons nm rest ih =>
      unfold markChain
      simp only [List.foldl]
      have hrest : ∀ x ∈ rest, nameKeyOk tm x :=
        fun x hx => hchain x (List.mem_cons_of_mem _ hx)
      cases hm : mapGet tm nm with
      | none =>
          have := ih s hrest
          unfold markChain at this
          exact this
      | some t =>
          have hstep : goodEvolution s (mapSet s nm (cycMark t msg)) :=
            goodEvolution_mapSet (hchain nm (List.mem_cons_self _ _) t hm)
          have htail := ih (mapSet s nm (cycMark t msg)) hrest
          unfold markChain at htail
          exact goodEvolution_trans hstep htail

theorem isSome_mapSet {s : List (String × ResolvedToken)} {k k' : String}
    {v : ResolvedToken} (h : (mapGet s k').isSome = true) :
    (mapGet (mapSet s k v) k').isSome = true := by
  rw [mapGet_mapSet]
  by_cases hk : k = k' <;> simp [hk, h]

theorem isSome_markChain (tm : List (String × ParsedToken))
    (s : List (String × ResolvedToken)) (chain : List String) (msg : String) (k : String)
    (h : (mapGet s k).isSome = true) :
    (mapGet (markChain tm s chain msg) k).isSome = true := by
  induction chain generalizing s with
  | nil => exact h
  | cons nm rest ih =>
      unfold markChain
      simp only [List.foldl]
      cases hm : mapGet tm nm with
      | none =>
          have := ih s h
          unfold markChain at this
          exact this
      | some t =>
          have := ih (mapSet s nm (cycMark t msg)) (isSome_mapSet h)
          unfold markChain at this
          exact this

theorem markChain_marks (tm : List (String × ParsedToken))
    (s : List (String × ResolvedToken)) (chain : List String) (msg : String) (n : String)
    (hn : n ∈ chain) (htok : (mapGet tm n).isSome = true) :
    (mapGet (markChain tm s chain msg) n).isSome = true := by
  induction chain generalizing s with
  | nil => exact absurd hn (by simp)
  | cons nm rest ih =>
      unfold markChain
      simp only [List.foldl]
      rcases List.mem_cons.1 hn with rfl | hn'
      · cases hm : mapGet tm n with
        | none => rw [hm] at htok; exact absurd htok (by simp)
        | some t =>
            have hset : (mapGet (mapSet s n (cycMark t msg)) n).isSome = true := by
              rw [mapGet_mapSet]
              simp
            have := isSome_markChain tm (mapSet s n (cycMark t msg)) rest msg n hset
            unfold markChain at this
            exact this
      · cases hm : mapGet tm nm with
        | none =>
            have := ih s hn'
            unfold markChain at this
            exact this
        | some t =>
            have := ih (mapSet s nm (cycMark t msg)) hn'
            unfold markChain at this
            exact this

theorem stackOk_append {tm : List (String × ParsedToken)} {stk : List String} {n : String}
    (h : stackOk tm stk) (hn : nameKeyOk tm n) : stackOk tm (stk ++ [n]) := by
  intro x hx
  rcases List.mem_append.1 hx with hx' | hx'
  · exact h x hx'
  · simp at hx'
    subst hx'
    exact hn

theorem stackOk_erase {tm : List (String × ParsedToken)} {stk : List String} {n : String}
    (h : stackOk tm stk) : stackOk tm (stk.erase n) := by
  intro x hx
  exact h x (List.mem_of_mem_erase hx)

theorem mkResolvedBase_name (t : ParsedToken) : (mkResolvedBase t).name = t.name := rfl

theorem refFailure_name (base : ResolvedToken) (r : String) (rres : Option ResolvedToken) :
    (refFailure base r rres).name = base.name := rfl

theorem refSuccess_name (base : ResolvedToken) (r : String) (x : ResolvedToken) :
    (refSuccess base r x).name = base.name := by
  unfold refSuccess
  split <;> rfl

/-- `resolveTokenValue` always returns a record named after its input token. -/
theorem resolveStep_tval_name (fuel : Nat) (st st2 : RState) (token : ParsedToken)
    (rv : ResolvedToken)
    (h : resolveStep fuel st (RCall.rtval token) = (st2, ROut.valOut rv)) :
    rv.name = token.name := by
  cases fuel with
  | zero =>
      simp only [resolveStep] at h
      have h2 := congrArg Prod.snd h
      simp at h2
  | succ f =>
      simp only [resolveStep] at h
      cases hv : token.value with
      | vstr s =>
          rw [hv] at h
          dsimp only at h
          by_cases hr : (isTokenReferenceStr s) = true
          · rw [if_pos hr] at h
            cases hp : parseTokenReferenceStr s with
            | none =>
                rw [hp] at h
                dsimp only at h
                injection h with h1 h2
                injection h2 with h3
                rw [← h3]
                rfl
            | some refName =>
                rw [hp] at h
                dsimp only at h
                by_cases hrn : refName = ""
                · rw [if_pos hrn] at h
                  injection h with h1 h2
                  injection h2 with h3
                  rw [← h3]
                  rfl
                · rw [if_neg hrn] at h
                  cases hf : findReferencedToken st.tokenMap refName with
                  | none =>
                      rw [hf] at h
                      dsimp only at h
                      injection h with h1 h2
                      injection h2 with h3
                      rw [← h3]
                      rfl
                  | some rt =>
                      rw [hf] at h
                      dsimp only at h
                      rcases hrec : resolveStep f st (RCall.rtok rt.name) with ⟨st3, out3⟩
                      rw [hrec] at h
                      cases out3 with
                      | tokOut rres =>
                          dsimp only at h
                          injection h with h1 h2
                          injection h2 with h3
                          rw [← h3]
                          cases rres with
                          | none => rw [refFailure_name, mkResolvedBase_name]
                          | some r =>
                              by_cases hres : (r.isResolved) = true
                              · simp only [hres, if_true]
                                rw [refSuccess_name, mkResolvedBase_name]
                              · simp only [hres, Bool.false_eq_true, if_false]
                                rw [refFailure_name, mkResolvedBase_name]
                      | exhausted =>
                          dsimp only at h
                          injection h with h1 h2
                          exact absurd h2 (by simp)
                      | thrown =>
                          dsimp only at h
                          injection h with h1 h2
                          exact absurd h2 (by simp)
                      | valOut rv2 =>
                          dsimp only at h
                          injection h with h1 h2
                          exact absurd h2 (by simp)
                      | compOut v ok err =>
                          dsimp only at h
                          injection h with h1 h2
                          exact absurd h2 (by simp)
                      | itemOut v ok errs =>
                          dsimp only at h
                          injection h with h1 h2
                          exact absurd h2 (by simp)
                      | arrOut vs ok errs =>
                          dsimp only at h
                          injection h with h1 h2
                          exact absurd h2 (by simp)
                      | objOut gs ok errs =>
                          dsimp only at h
                          injection h with h1 h2
                          exact absurd h2 (by simp)
          · rw [if_neg hr] at h
            injection h with h1 h2
            injection h2 with h3
            rw [← h3]
            rfl
      | vnum k =>
          rw [hv] at h; dsimp only at h
          injection h with h1 h2; injection h2 with h3; rw [← h3]; rfl
      | vbool k =>
          rw [hv] at h; dsimp only at h
          injection h with h1 h2; injection h2 with h3; rw [← h3]; rfl
      | vnull =>
          rw [hv] at h; dsimp only at h
          injection h with h1 h2; injection h2 with h3; rw [← h3]; rfl
      | varr xs =>
          rw [hv] at h
          dsimp only at h
          rcases hrec : resolveStep f st (RCall.rcomp (Value.varr xs)) with ⟨st3, out3⟩
          rw [hrec] at h
          cases out3 with
          | compOut v ok err =>
              dsimp only at h
              injection h with h1 h2
              injection h2 with h3
              rw [← h3]
              rfl
          | exhausted => dsimp only at h; injection h with h1 h2; exact absurd h2 (by simp)
          | thrown => dsimp only at h; injection h with h1 h2; exact absurd h2 (by simp)
          | tokOut r => dsimp only at h; injection h with h1 h2; exact absurd h2 (by simp)
          | valOut rv2 => dsimp only at h; injection h with h1 h2; exact absurd h2 (by simp)
          | itemOut v ok errs =>
              dsimp only at h; injection h with h1 h2; exact absurd h2 (by simp)
          | arrOut vs ok errs =>
              dsimp only at h; injection h with h1 h2; exact absurd h2 (by simp)
          | objOut gs ok errs =>
              dsimp only at h; injection h with h1 h2; exact absurd h2 (by simp)
      | vobj fs =>
          rw [hv] at h
          dsimp only at h
          rcases hrec : resolveStep f st (RCall.rcomp (Value.vobj fs)) with ⟨st3, out3⟩
          rw [hrec] at h
          cases out3 with
          | compOut v ok err =>
              dsimp only at h
              injection h with h1 h2
              injection h2 with h3
              rw [← h3]
              rfl
          | exhausted => dsimp only at h; injection h with h1 h2; exact absurd h2 (by simp)
          | thrown => dsimp only at h; injection h with h1 h2; exact absurd h2 (by simp)
          | tokOut r => dsimp only at h; injection h with h1 h2; exact absurd h2 (by simp)
          | valOut rv2 => dsimp only at h; injection h with h1 h2; exact absurd h2 (by simp)
          | itemOut v ok errs =>
              dsimp only at h; injection h with h1 h2; exact absurd h2 (by simp)
          | arrOut vs ok errs =>
              dsimp only at h; injection h with h1 h2; exact absurd h2 (by simp)
          | objOut gs ok errs =>
              dsimp only at h; injection h with h1 h2; exact absurd h2 (by simp)

/-- Bundled facts preserved by every resolver step: the token map is constant,
memo entries are only written under the written record's name, key uniqueness
and memo-domain membership are preserved, and the resulting stack still holds
only unshadowed names. -/
def stepInv (st res : RState) : Prop :=
  res.tokenMap = st.tokenMap ∧
  goodEvolution st.resolved res.resolved ∧
  ((mapKeys st.resolved).Nodup → (mapKeys res.resolved).Nodup) ∧
  (∀ k, (mapGet st.resolved k).isSome = true → (mapGet res.resolved k).isSome = true) ∧
  stackOk st.tokenMap res.stack

theorem stepInv_trans {st st2 st3 : RState} (h1 : stepInv st st2) (h2 : stepInv st2 st3) :
    stepInv st st3 := by
  obtain ⟨e1, g1, n1, d1, s1⟩ := h1
  obtain ⟨e2, g2, n2, d2, s2⟩ := h2
  refine ⟨e2.trans e1, goodEvolution_trans g1 g2, fun h => n2 (n1 h), fun k h => d2 k (d1 k h), ?_⟩
  rw [e1] at s2
  exact s2

theorem stepInv_same (st : RState) (h : stackOk st.tokenMap st.stack) : stepInv st st :=
  ⟨rfl, goodEvolution_refl _, id, fun _ h => h, h⟩

theorem stepInv_stackChange (st : RState) (stk : List String)
    (h : stackOk st.tokenMap stk) : stepInv st { st with stack := stk } :=
  ⟨rfl, goodEvolution_refl _, id, fun _ h => h, h⟩

theorem stepInv_commit (st : RState) (n : String) (rv : ResolvedToken)
    (hname : rv.name = n) (hstk : stackOk st.tokenMap st.stack) :
    stepInv st ((commitResolved st n rv).1) := by
  unfold commitResolved
  cases hm : mapGet st.resolved n with
  | none =>
      exact ⟨rfl, goodEvolution_mapSet hname, nodup_mapKeys_mapSet _ _ _,
        fun k h => isSome_mapSet h, stackOk_erase hstk⟩
  | some ex =>
      by_cases hg : (ex.hasCircularReference || errIncludesCircular ex.resolutionError) = true
      · simp only [hg, if_true]
        exact ⟨rfl, goodEvolution_refl _, id, fun _ h => h, stackOk_erase hstk⟩
      · simp only [hg, Bool.false_eq_true, if_false]
        exact ⟨rfl, goodEvolution_mapSet hname, nodup_mapKeys_mapSet _ _ _,
          fun k h => isSome_mapSet h, stackOk_erase hstk⟩

theorem stepInv_cycle (st : RState) (token : ParsedToken) (n : String)
    (hchain : ∀ nm ∈ st.stack ++ [n], nameKeyOk st.tokenMap nm)
    (hstk : stackOk st.tokenMap st.stack) :
    stepInv st ((cycleResolve st token n).1) := by
  unfold cycleResolve
  cases hv : token.value with
  | vstr s =>
      dsimp only
      cases hp : parseTokenReferenceStr s with
      | none =>
          exact ⟨rfl, goodEvolution_markChain _ _ _ _ hchain, nodup_markChain _ _ _ _,
            fun k h => isSome_markChain _ _ _ _ k h, hstk⟩
      | some ref =>
          dsimp only
          cases hf : findReferencedToken st.tokenMap ref with
          | none =>
              exact ⟨rfl, goodEvolution_markChain _ _ _ _ hchain, nodup_markChain _ _ _ _,
                fun k h => isSome_markChain _ _ _ _ k h, hstk⟩
          | some cp =>
              refine ⟨rfl, ?_, ?_, ?_, hstk⟩
              · exact goodEvolution_trans (goodEvolution_markChain _ _ _ _ hchain)
                  (goodEvolution_mapSet rfl)
              · intro h
                exact nodup_mapKeys_mapSet _ _ _ (nodup_markChain _ _ _ _ h)
              · intro k h
                exact isSome_mapSet (isSome_markChain _ _ _ _ k h)
  | vnum k =>
      exact ⟨rfl, goodEvolution_markChain _ _ _ _ hchain, nodup_markChain _ _ _ _,
        fun k h => isSome_markChain _ _ _ _ k h, hstk⟩
  | vbool k =>
      exact ⟨rfl, goodEvolution_markChain _ _ _ _ hchain, nodup_markChain _ _ _ _,
        fun k h => isSome_markChain _ _ _ _ k h, hstk⟩
  | vnull =>
      exact ⟨rfl, goodEvolution_markChain _ _ _ _ hchain, nodup_markChain _ _ _ _,
        fun k h => isSome_markChain _ _ _ _ k h, hstk⟩
  | varr k =>
      exact ⟨rfl, goodEvolution_markChain _ _ _ _ hchain, nodup_markChain _ _ _ _,
        fun k h => isSome_markChain _ _ _ _ k h, hstk⟩
  | vobj k =>
      exact ⟨rfl, goodEvolution_markChain _ _ _ _ hchain, nodup_markChain _ _ _ _,
        fun k h => isSome_markChain _ _ _ _ k h, hstk⟩

theorem resolveStep_stepInv :
    ∀ (fuel : Nat) (st : RState) (c : RCall),
      goodMap st.tokenMap → stackOk st.tokenMap st.stack → callOk st.tokenMap c →
      stepInv st ((resolveStep fuel st c).1) := by
  intro fuel
  induction fuel with
  | zero => intro st c hg hstk _hc; exact stepInv_same st hstk
  | succ f ih =>
      intro st c hg hstk hc
      cases c with
      | rtok n =>
          have hn : nameKeyOk st.tokenMap n := hc
          simp only [resolveStep]
          cases hm : mapGet st.resolved n with
          | some r => exact stepInv_same st hstk
          | none =>
              cases ht : mapGet st.tokenMap n with
              | none => exact stepInv_same st hstk
              | some token =>
                  by_cases hstkc : (st.stack.contains n) = true
                  · simp only [hstkc, if_true]
                    exact stepInv_cycle st token n (stackOk_append hstk hn) hstk
                  · simp only [hstkc, Bool.false_eq_true, if_false]
                    have hstk1 : stackOk st.tokenMap (st.stack ++ [n]) := stackOk_append hstk hn
                    have h01 : stepInv st { st with stack := st.stack ++ [n] } :=
                      stepInv_stackChange st _ hstk1
                    have h12 := ih { st with stack := st.stack ++ [n] } (RCall.rtval token)
                      hg hstk1 trivial
                    rcases hrec : resolveStep f { st with stack := st.stack ++ [n] }
                        (RCall.rtval token) with ⟨st2, out2⟩
                    rw [hrec] at h12
                    have h02 : stepInv st st2 := stepInv_trans h01 h12
                    have hstk2 : stackOk st2.tokenMap st2.stack := by
                      rw [h02.1]
                      exact h02.2.2.2.2
                    cases out2 with
                    | valOut rv =>
                        have hvn : rv.name = token.name :=
                          resolveStep_tval_name f _ st2 token rv hrec
                        exact stepInv_trans h02
                          (stepInv_commit st2 n rv (hvn.trans (hn token ht)) hstk2)
                    | exhausted =>
                        exact stepInv_trans h02
                          (stepInv_stackChange st2 _ (stackOk_erase hstk2))
                    | thrown =>
                        exact stepInv_trans h02
                          (stepInv_stackChange st2 _ (stackOk_erase hstk2))
                    | tokOut r =>
                        exact stepInv_trans h02
                          (stepInv_stackChange st2 _ (stackOk_erase hstk2))
                    | compOut v ok err =>
                        exact stepInv_trans h02
                          (stepInv_stackChange st2 _ (stackOk_erase hstk2))
                    | itemOut v ok errs =>
                        exact stepInv_trans h02
                          (stepInv_stackChange st2 _ (stackOk_erase hstk2))
                    | arrOut vs ok errs =>
                        exact stepInv_trans h02
                          (stepInv_stackChange st2 _ (stackOk_erase hstk2))
                    | objOut gs ok errs =>
                        exact stepInv_trans h02
                          (stepInv_stackChange st2 _ (stackOk_erase hstk2))
      | rtval token =>
          simp only [resolveStep]
          cases hv : token.value with
          | vstr s =>
              by_cases hr : (isTokenReferenceStr s) = true
              · simp only [hr, if_true]
                cases hp : parseTokenReferenceStr s with
                | none => exact stepInv_same st hstk
                | some refName =>
                    by_cases hrn : refName = ""
                    · simp only [hrn, if_pos rfl]
                      exact stepInv_same st hstk
                    · simp only [if_neg hrn]
                      cases hf : findReferencedToken st.tokenMap refName with
                      | none => exact stepInv_same st hstk
                      | some rt =>
                          dsimp only
                          have hcall : nameKeyOk st.tokenMap rt.name :=
                            goodMap_nameKeyOk hg (findReferencedToken_mem hf)
                          have h12 := ih st (RCall.rtok rt.name) hg hstk hcall
                          rcases hrec : resolveStep f st (RCall.rtok rt.name) with ⟨st2, out2⟩
                          rw [hrec] at h12
                          cases out2 <;> exact h12
              · simp only [hr, Bool.false_eq_true, if_false]
                exact stepInv_same st hstk
          | vnum k => exact stepInv_same st hstk
          | vbool k => exact stepInv_same st hstk
          | vnull => exact stepInv_same st hstk
          | varr xs =>
              dsimp only
              have h12 := ih st (RCall.rcomp (Value.varr xs)) hg hstk trivial
              rcases hrec : resolveStep f st (RCall.rcomp (Value.varr xs)) with ⟨st2, out2⟩
              rw [hrec] at h12
              cases out2 <;> exact h12
          | vobj fs =>
              dsimp only
              have h12 := ih st (RCall.rcomp (Value.vobj fs)) hg hstk trivial
              rcases hrec : resolveStep f st (RCall.rcomp (Value.vobj fs)) with ⟨st2, out2⟩
              rw [hrec] at h12
              cases out2 <;> exact h12
      | rcomp v =>
          simp only [resolveStep]
          cases v with
          | varr xs =>
              dsimp only
              have h12 := ih st (RCall.rcarr xs) hg hstk trivial
              rcases hrec : resolveStep f st (RCall.rcarr xs) with ⟨st2, out2⟩
              rw [hrec] at h12
              cases out2 <;> exact h12
          | vobj fs =>
              dsimp only
              have h12 := ih st (RCall.rcobj fs) hg hstk trivial
              rcases hrec : resolveStep f st (RCall.rcobj fs) with ⟨st2, out2⟩
              rw [hrec] at h12
              cases out2 <;> exact h12
          | vstr s => exact stepInv_same st hstk
          | vnum k => exact stepInv_same st hstk
          | vbool k => exact stepInv_same st hstk
          | vnull => exact stepInv_same st hstk
      | ritem keyPre item =>
          simp only [resolveStep]
          cases item with
          | vstr s =>
              by_cases hr : (isTokenReferenceStr s) = true
              · simp only [hr, if_true]
                cases hp : parseTokenReferenceStr s with
                | none => exact stepInv_same st hstk
                | some refName =>
                    by_cases hrn : refName = ""
                    · simp only [hrn, if_pos rfl]
                      exact stepInv_same st hstk
                    · simp only [if_neg hrn]
                      cases hf : findReferencedToken st.tokenMap refName with
                      | none => exact stepInv_same st hstk
                      | some rt =>
                          dsimp only
                          have hcall : nameKeyOk st.tokenMap rt.name :=
                            goodMap_nameKeyOk hg (findReferencedToken_mem hf)
                          have h12 := ih st (RCall.rtok rt.name) hg hstk hcall
                          rcases hrec : resolveStep f st (RCall.rtok rt.name) with ⟨st2, out2⟩
                          rw [hrec] at h12
                          cases out2 <;> exact h12
              · simp only [hr, Bool.false_eq_true, if_false]
                exact stepInv_same st hstk
          | vobj fs =>
              dsimp only
              have h12 := ih st (RCall.rcomp (Value.vobj fs)) hg hstk trivial
              rcases hrec : resolveStep f st (RCall.rcomp (Value.vobj fs)) with ⟨st2, out2⟩
              rw [hrec] at h12
              cases out2 <;> exact h12
          | varr xs =>
              dsimp only
              have h12 := ih st (RCall.rcomp (Value.varr xs)) hg hstk trivial
              rcases hrec : resolveStep f st (RCall.rcomp (Value.varr xs)) with ⟨st2, out2⟩
              rw [hrec] at h12
              cases out2 <;> exact h12
          | vnum k => exact stepInv_same st hstk
          | vbool k => exact stepInv_same st hstk
          | vnull => exact stepInv_same st hstk
      | rcarr items =>
          simp only [resolveStep]
          cases items with
          | nil => exact stepInv_same st hstk
          | cons item rest =>
              dsimp only
              have h01 := ih st (RCall.ritem none item) hg hstk trivial
              rcases hrec : resolveStep f st (RCall.ritem none item) with ⟨st1, out1⟩
              rw [hrec] at h01
              cases out1 with
              | itemOut v ok errs =>
                  dsimp only
                  have hg1 : goodMap st1.tokenMap := by rw [h01.1]; exact hg
                  have hstka : stackOk st1.tokenMap st1.stack := by
                    rw [h01.1]
                    exact h01.2.2.2.2
                  have h12 := ih st1 (RCall.rcarr rest) hg1 hstka trivial
                  rcases hrec2 : resolveStep f st1 (RCall.rcarr rest) with ⟨st2, out2⟩
                  rw [hrec2] at h12
                  cases out2 <;> exact stepInv_trans h01 h12
              | exhausted => exact h01
              | thrown => exact h01
              | tokOut r => exact h01
              | valOut rv => exact h01
              | compOut v ok err => exact h01
              | arrOut vs ok errs => exact h01
              | objOut gs ok errs => exact h01
      | rcobj fields =>
          simp only [resolveStep]
          cases fields with
          | nil => exact stepInv_same st hstk
          | cons kv rest =>
              rcases kv with ⟨k, val⟩
              dsimp only
              have h01 := ih st (RCall.ritem (some k) val) hg hstk trivial
              rcases hrec : resolveStep f st (RCall.ritem (some k) val) with ⟨st1, out1⟩
              rw [hrec] at h01
              cases out1 with
              | itemOut v ok errs =>
                  dsimp only
                  have hg1 : goodMap st1.tokenMap := by rw [h01.1]; exact hg
                  have hstka : stackOk st1.tokenMap st1.stack := by
                    rw [h01.1]
                    exact h01.2.2.2.2
                  have h12 := ih st1 (RCall.rcobj rest) hg1 hstka trivial
                  rcases hrec2 : resolveStep f st1 (RCall.rcobj rest) with ⟨st2, out2⟩
                  rw [hrec2] at h12
                  cases out2 <;> exact stepInv_trans h01 h12
              | exhausted => exact h01
              | thrown => exact h01
              | tokOut r => exact h01
              | valOut rv => exact h01
              | compOut v ok err => exact h01
              | arrOut vs ok errs => exact h01
              | objOut gs ok errs => exact h01

theorem mapGet_some_mem_keys {α : Type} {m : List (String × α)} {k : String} {v : α}
    (h : mapGet m k = some v) : k ∈ mapKeys m := by
  induction m with
  | nil => simp [mapGet] at h
  | cons hd tl ih =>
      rcases hd with ⟨k', v'⟩
      rw [mapGet_cons] at h
      by_cases hk : k' = k
      · simp [mapKeys, hk]
      · rw [if_neg hk] at h
        simp [mapKeys]
        right
        have := ih h
        simpa [mapKeys] using this

theorem mapValues_names_eq_keys {m : List (String × ResolvedToken)}
    (hnd : (mapKeys m).Nodup) (hnm : namesOk m) :
    (mapValues m).map (fun r => r.name) = mapKeys m := by
  induction m with
  | nil => rfl
  | cons hd tl ih =>
      rcases hd with ⟨k, v⟩
      have hhead : v.name = k := hnm k v (by rw [mapGet_cons, if_pos rfl])
      have hknotin : k ∉ mapKeys tl := by
        have := hnd
        simp [mapKeys] at this
        simpa [mapKeys] using this.1
      have hndtl : (mapKeys tl).Nodup := by
        have := hnd
        simp [mapKeys] at this
        simpa [mapKeys] using this.2
      have hnmtl : namesOk tl := by
        intro k' v' h'
        have hk' : k' ∈ mapKeys tl := mapGet_some_mem_keys h'
        have hne : k ≠ k' := fun hh => hknotin (hh ▸ hk')
        exact hnm k' v' (by rw [mapGet_cons, if_neg hne]; exact h')
      simp [mapValues, mapKeys, hhead] at ih ⊢
      exact ih hndtl hnmtl

theorem resolveStep_tok_some (fuel : Nat) (st st1 : RState) (n : String)
    (token : ParsedToken) (ht : mapGet st.tokenMap n = some token)
    (h : resolveStep fuel st (RCall.rtok n) = (st1, ROut.tokOut none)) : False := by
  cases fuel with
  | zero =>
      simp only [resolveStep] at h
      have h2 := congrArg Prod.snd h
      simp at h2
  | succ f =>
      simp only [resolveStep] at h
      cases hm : mapGet st.resolved n with
      | some r0 =>
          rw [hm] at h
          have h2 := congrArg Prod.snd h
          simp at h2
      | none =>
          rw [hm, ht] at h
          dsimp only at h
          by_cases hc : (st.stack.contains n) = true
          · rw [if_pos hc] at h
            unfold cycleResolve at h
            have hmemn : n ∈ st.stack ++ [n] := List.mem_append.2 (Or.inr (by simp))
            have htokS : (mapGet st.tokenMap n).isSome = true := by rw [ht]; rfl
            cases hv : token.value with
            | vstr s =>
                rw [hv] at h
                dsimp only at h
                cases hp : parseTokenReferenceStr s with
                | none =>
                    rw [hp] at h
                    dsimp only at h
                    have h2 := congrArg Prod.snd h
                    dsimp only at h2
                    injection h2 with h3
                    have hsome := markChain_marks st.tokenMap st.resolved
                      (st.stack ++ [n])
                      ("Circular reference detected: " ++ joinArrow (st.stack ++ [n]))
                      n hmemn htokS
                    rw [h3] at hsome
                    simp at hsome
                | some ref =>
                    rw [hp] at h
                    dsimp only at h
                    cases hf : findReferencedToken st.tokenMap ref with
                    | none =>
                        rw [hf] at h
                        dsimp only at h
                        have h2 := congrArg Prod.snd h
                        dsimp only at h2
                        injection h2 with h3
                        have hsome := markChain_marks st.tokenMap st.resolved
                          (st.stack ++ [n])
                          ("Circular reference detected: " ++ joinArrow (st.stack ++ [n]))
                          n hmemn htokS
                        rw [h3] at hsome
                        simp at hsome
                    | some cp =>
                        rw [hf] at h
                        dsimp only at h
                        have h2 := congrArg Prod.snd h
                        dsimp only at h2
                        injection h2 with h3
                        have hsome : (mapGet (mapSet (markChain st.tokenMap st.resolved
                            (st.stack ++ [n])
                            ("Circular reference detected: " ++ joinArrow (st.stack ++ [n])))
                            cp.name (cycMark cp ("Circular reference detected: " ++
                              joinArrow (st.stack ++ [n])))) n).isSome = true :=
                          isSome_mapSet (markChain_marks st.tokenMap st.resolved
                            (st.stack ++ [n]) _ n hmemn htokS)
                        rw [h3] at hsome
                        simp at hsome
            | vnum k =>
                rw [hv] at h
                dsimp only at h
                have h2 := congrArg Prod.snd h
                simp at h2
            | vbool k =>
                rw [hv] at h
                dsimp only at h
                have h2 := congrArg Prod.snd h
                simp at h2
            | vnull =>
                rw [hv] at h
                dsimp only at h
                have h2 := congrArg Prod.snd h
                simp at h2
            | varr xs =>
                rw [hv] at h
                dsimp only at h
                have h2 := congrArg Prod.snd h
                simp at h2
            | vobj fs =>
                rw [hv] at h
                dsimp only at h
                have h2 := congrArg Prod.snd h
                simp at h2
          · rw [if_neg hc] at h
            rcases hrec : resolveStep f { st with stack := st.stack ++ [n] }
                (RCall.rtval token) with ⟨st2, out2⟩
            rw [hrec] at h
            cases out2 with
            | valOut rv =>
                dsimp only at h
                unfold commitResolved at h
                cases hm2 : mapGet st2.resolved n with
                | some ex =>
                    rw [hm2] at h
                    dsimp only at h
                    by_cases hg2 : (ex.hasCircularReference ||
                        errIncludesCircular ex.resolutionError) = true
                    · rw [if_pos hg2] at h
                      have h2 := congrArg Prod.snd h
                      simp at h2
                    · rw [if_neg hg2] at h
                      have h2 := congrArg Prod.snd h
                      simp at h2
                | none =>
                    rw [hm2] at h
                    dsimp only at h
                    have h2 := congrArg Prod.snd h
                    simp at h2
            | exhausted =>
                dsimp only at h
                have h2 := congrArg Prod.snd h
                simp at h2
            | thrown =>
                dsimp only at h
                have h2 := congrArg Prod.snd h
                simp at h2
            | tokOut r' =>
                dsimp only at h
                have h2 := congrArg Prod.snd h
                simp at h2
            | compOut v ok err =>
                dsimp only at h
                have h2 := congrArg Prod.snd h
                simp at h2
            | itemOut v ok errs =>
                dsimp only at h
                have h2 := congrArg Prod.snd h
                simp at h2
            | arrOut vs ok errs =>
                dsimp only at h
                have h2 := congrArg Prod.snd h
                simp at h2
            | objOut gs ok errs =>
                dsimp only at h
                have h2 := congrArg Prod.snd h
                simp at h2

theorem resolveStep_tok_writes (fuel : Nat) (st st1 : RState) (n : String)
    (r : Option ResolvedToken) (token : ParsedToken)
    (ht : mapGet st.tokenMap n = some token)
    (h : resolveStep fuel st (RCall.rtok n) = (st1, ROut.tokOut r)) :
    (mapGet st1.resolved n).isSome = true := by
  cases r with
  | some rv => rw [resolveStep_tok_result_memoised fuel st st1 n rv h]; rfl
  | none => exact absurd h (fun hh => resolveStep_tok_some fuel st st1 n token ht hh)

theorem resolveAllGo_sound (fuel : Nat) :
    ∀ (ts : List ParsedToken) (st st1 : RState),
      goodMap st.tokenMap → stackOk st.tokenMap st.stack →
      (mapKeys st.resolved).Nodup → namesOk st.resolved →
      (∀ t ∈ ts, t ∈ mapValues st.tokenMap) →
      resolveAllGo fuel ts st = (st1, true) →
      st1.tokenMap = st.tokenMap ∧ (mapKeys st1.resolved).Nodup ∧ namesOk st1.resolved ∧
      (∀ k, (mapGet st.resolved k).isSome = true → (mapGet st1.resolved k).isSome = true) ∧
      (∀ t ∈ ts, (mapGet st1.resolved t.name).isSome = true) := by
  intro ts
  induction ts with
  | nil =>
      intro st st1 _hg _hstk hnd hnames _hts h
      simp only [resolveAllGo] at h
      have h1 := congrArg Prod.fst h
      dsimp only at h1
      subst h1
      exact ⟨rfl, hnd, hnames, fun _ hk => hk, fun t ht => absurd ht (List.not_mem_nil t)⟩
  | cons t ts ih =>
      intro st st1 hg hstk hnd hnames hts h
      simp only [resolveAllGo] at h
      by_cases hmemo : ((mapGet st.resolved t.name).isSome) = true
      · rw [if_pos hmemo] at h
        obtain ⟨he, hnd1, hnm1, hmono, hcov⟩ :=
          ih st st1 hg hstk hnd hnames (fun x hx => hts x (List.mem_cons_of_mem t hx)) h
        refine ⟨he, hnd1, hnm1, hmono, ?_⟩
        intro x hx
        rcases List.mem_cons.1 hx with rfl | hx'
        · exact hmono x.name hmemo
        · exact hcov x hx'
      · rw [if_neg hmemo] at h
        rcases hrec : resolveStep fuel st (RCall.rtok t.name) with ⟨sta, out⟩
        rw [hrec] at h
        have hti : t ∈ mapValues st.tokenMap := hts t (List.mem_cons_self t ts)
        have hcall : nameKeyOk st.tokenMap t.name := goodMap_nameKeyOk hg hti
        cases out with
        | tokOut r =>
            dsimp only at h
            have hstep := resolveStep_stepInv fuel st (RCall.rtok t.name) hg hstk hcall
            rw [hrec] at hstep
            dsimp only at hstep
            obtain ⟨he0, gev, ndp, mono, stks⟩ := hstep
            have hga : goodMap sta.tokenMap := by rw [he0]; exact hg
            have hstka : stackOk sta.tokenMap sta.stack := by rw [he0]; exact stks
            have hnda : (mapKeys sta.resolved).Nodup := ndp hnd
            have hnamesa : namesOk sta.resolved := namesOk_of_goodEvolution hnames gev
            have htsa : ∀ x ∈ ts, x ∈ mapValues sta.tokenMap := by
              intro x hx
              rw [he0]
              exact hts x (List.mem_cons_of_mem t hx)
            obtain ⟨he1, hnd1, hnm1, hmono1, hcov1⟩ :=
              ih sta st1 hga hstka hnda hnamesa htsa h
            obtain ⟨t', htt', _htn⟩ := hg t hti
            have hw : (mapGet sta.resolved t.name).isSome = true :=
              resolveStep_tok_writes fuel st sta t.name r t' htt' hrec
            refine ⟨he1.trans he0, hnd1, hnm1, fun k hk => hmono1 k (mono k hk), ?_⟩
            intro x hx
            rcases List.mem_cons.1 hx with rfl | hx'
            · exact hmono1 x.name hw
            · exact hcov1 x hx'
        | exhausted =>
            dsimp only at h
            have h2 := congrArg Prod.snd h
            simp at h2
        | thrown =>
            dsimp only at h
            have h2 := congrArg Prod.snd h
            simp at h2
        | valOut rv =>
            dsimp only at h
            have h2 := congrArg Prod.snd h
            simp at h2
        | compOut v ok err =>
            dsimp only at h
            have h2 := congrArg Prod.snd h
            simp at h2
        | itemOut v ok errs =>
            dsimp only at h
            have h2 := congrArg Prod.snd h
            simp at h2
        | arrOut vs ok errs =>
            dsimp only at h
            have h2 := congrArg Prod.snd h
            simp at h2
        | objOut gs ok errs =>
            dsimp only at h
            have h2 := congrArg Prod.snd h
            simp at h2

def c9wTokens : List ParsedToken :=
  [{ name := "colors-a", path := ["colors", "a"], value := Value.vstr "#fff" },
   { name := "colors-b", path := ["colors", "b"], value := Value.vstr "\x7bcolors.a\x7d" }]

/-- C9, amended: provided no token's name key is shadowed in the resolver's
lookup map -- looking up any stored token's name yields a token bearing that
name (`goodMap`) -- `resolveAllTokens` returns a list whose names are pairwise
distinct and that contains every stored token's name: exactly one
`ResolvedToken` per distinct token name.  (Without the hypothesis this fails:
a token whose dot-joined path equals another token's name overwrites that
name key and the output carries duplicate names, see the counterexample.) -/
theorem c9_unique_names_amended (fuel : Nat) (tokens : List ParsedToken)
    (st' : RState) (l : List ResolvedToken)
    (hgood : goodMap (buildTokenMap tokens))
    (h : resolveAllTokens fuel (initResolver tokens) = (st', some l)) :
    (l.map (fun r => r.name)).Nodup ∧
    ∀ t ∈ mapValues (buildTokenMap tokens), t.name ∈ l.map (fun r => r.name) := by
  unfold resolveAllTokens at h
  rcases hgo : resolveAllGo fuel (mapValues (initResolver tokens).tokenMap)
      (initResolver tokens) with ⟨st1, ok⟩
  rw [hgo] at h
  cases ok with
  | false =>
      dsimp only at h
      have h2 := congrArg Prod.snd h
      simp at h2
  | true =>
      dsimp only at h
      have hstk0 : stackOk (initResolver tokens).tokenMap (initResolver tokens).stack := by
        intro x hx
        simp [initResolver] at hx
      have hnd0 : (mapKeys (initResolver tokens).resolved).Nodup := by
        simp [initResolver, mapKeys]
      have hnm0 : namesOk (initResolver tokens).resolved := by
        intro k r hk
        simp [initResolver, mapGet] at hk
      obtain ⟨_he, hnd, hnm, _hmono, hcov⟩ :=
        resolveAllGo_sound fuel (mapValues (initResolver tokens).tokenMap)
          (initResolver tokens) st1 hgood hstk0 hnd0 hnm0 (fun t ht => ht) hgo
      injection h with h1 h2
      injection h2 with h3
      subst h3
      have hkeys := mapValues_names_eq_keys hnd hnm
      constructor
      · rw [hkeys]
        exact hnd
      · intro t ht
        obtain ⟨v, hv⟩ := Option.isSome_iff_exists.1 (hcov t ht)
        rw [hkeys]
        exact mapGet_some_mem_keys hv

/-- C9 witness: two tokens whose four lookup keys (names and dot-joined
paths) are pairwise distinct satisfy the no-shadowing hypothesis, and
`resolveAllTokens` returns one record per token name. -/
theorem c9_unique_names_amended_witness :
    ∃ (st' : RState) (l : List ResolvedToken),
      resolveAllTokens 9 (initResolver c9wTokens) = (st', some l) ∧
      (l.map (fun r => r.name)).Nodup ∧
      ∀ t ∈ mapValues (buildTokenMap c9wTokens), t.name ∈ l.map (fun r => r.name) := by
  have hgood : goodMap (buildTokenMap c9wTokens) := by
    intro t ht
    fin_cases ht <;> exact ⟨_, rfl, rfl⟩
  exact ⟨_, _, rfl, c9_unique_names_amended 9 c9wTokens _ _ hgood rfl⟩
